import Mathlib

/-!
Verification development for the incremental garbage collector of the
Motoko runtime system (`src/rts/motoko-rts`).

The Rust sources are shallowly embedded as executable Lean functions:
machine words are `Nat` (all addresses in the scenarios under study are far
from 2^32, so wrap-around never matters), raw memory is a function from
word-aligned byte addresses to word values, and fallible operations
(release-mode `assert!`) return `Option`.

Several source files referenced by the GC core are not part of the provided
sources (`types.rs`, `partitioned_heap.rs`, `mark_stack.rs`, `visitor.rs`,
`memory.rs`, `array_slicing.rs`, `update_increment.rs`,
the `move_to_young_generation` helper of a newer `write_barrier.rs`).
Definitions that replace them are modelled from the specification and say so
in their doc comment.
-/

set_option maxHeartbeats 1000000

namespace MotokoGc

/-! ## Word and tag model -/

/-- Word size in bytes of the 32-bit runtime (`constants::WORD_SIZE`). -/
def WORD_SIZE : Nat := 4

/-- Modelled from the spec: pointers are "skewed by subtracting 1 so that
pointer values are misaligned and distinguishable from scalars"
(`types.rs` is not in the provided sources). -/
def skew (a : Nat) : Nat := a - 1

/-- Modelled from the spec: inverse of the pointer skew. -/
def unskew (v : Nat) : Nat := v + 1

/-- Modelled from the spec: tag of a plain object (`types.rs` not provided).
The concrete numbers are a consistent assignment; all theorems depend only on
the ordering constraints stated in the code
(`TAG_OBJECT <= real tags <= TAG_NULL < TAG_ARRAY_SLICE_MIN <= 128`). -/
def TAG_OBJECT : Nat := 1

/-- Modelled from the spec: array tag (`types.rs` not provided). -/
def TAG_ARRAY : Nat := 3

/-- Modelled from the spec: largest real object tag (`types.rs` not provided). -/
def TAG_NULL : Nat := 9

/-- Modelled from the spec: free-space filler tag (`types.rs` not provided). -/
def TAG_FREE_SPACE : Nat := 10

/-- Modelled from the spec: one-word filler tag (`types.rs` not provided). -/
def TAG_ONE_WORD_FILLER : Nat := 11

/-- Modelled from the spec: slice tags occupy the range
`TAG_ARRAY_SLICE_MIN ..`; `mark_phase.rs` requires
`SLICE_INCREMENT (= 128) >= TAG_ARRAY_SLICE_MIN` and the discrimination from
real object tags requires `TAG_ARRAY_SLICE_MIN > TAG_NULL`
(`types.rs` not provided). -/
def TAG_ARRAY_SLICE_MIN : Nat := 32

/-! ## `BoundedTime` (`gc/incremental.rs`, lines 125-160) -/

/-- Limit on the number of steps of the GC increment on an empty call stack
(`LONG_INCREMENT_TIME_LIMIT` in `gc/incremental.rs`). -/
def LONG_INCREMENT_TIME_LIMIT : Nat := 1000000

/-- Limit on the number of steps of the GC increment piggybacked on
allocation (`SHORT_INCREMENT_TIME_LIMIT` in `gc/incremental.rs`). -/
def SHORT_INCREMENT_TIME_LIMIT : Nat := 50000

/-- `BoundedTime { steps, limit }`: synthetic deterministic measure of the
work performed in a GC increment. -/
structure BoundedTime where
  steps : Nat
  limit : Nat
deriving DecidableEq, Repr

/-- `BoundedTime::new(limit)`. -/
def BoundedTime.new (limit : Nat) : BoundedTime := ⟨0, limit⟩

/-- `BoundedTime::long_interval()`. -/
def BoundedTime.longInterval : BoundedTime := BoundedTime.new LONG_INCREMENT_TIME_LIMIT

/-- `BoundedTime::short_interval()`. -/
def BoundedTime.shortInterval : BoundedTime := BoundedTime.new SHORT_INCREMENT_TIME_LIMIT

/-- `BoundedTime::tick()`: `steps += 1`. -/
def BoundedTime.tick (t : BoundedTime) : BoundedTime := ⟨t.steps + 1, t.limit⟩

/-- `BoundedTime::advance(amount)`: `steps += amount`. -/
def BoundedTime.advance (t : BoundedTime) (amount : Nat) : BoundedTime :=
  ⟨t.steps + amount, t.limit⟩

/-- `BoundedTime::is_over()`: `steps > limit`. -/
def BoundedTime.isOver (t : BoundedTime) : Bool := t.steps > t.limit

/-! ## Object table model (`gc/incremental/object_table.rs`)

The table state and the linear memory holding its slots, the heap blocks and
the allocation pointers are combined into one record.  Table slots live in
`words` precisely as in the source (`write_element`/`read_element` are raw
memory accesses through the skewed object id). -/

/-- Modelled from the spec: the sentinel `NULL_OBJECT_ID` that ends the free
stack (`types.rs` not provided).  Raw value 0 collides with no table slot id,
which are skewed word-aligned addresses. -/
def NULL_OBJECT_ID : Nat := 0

/-- State of the object table (`ObjectTable { base, length, free }`)
together with the linear memory and the host `Memory` interface state
(heap pointer, last heap pointer, heap base — modelled from the spec's
`Memory` trait, `memory.rs` not provided) and the young remembered set
(modelled from the spec: `move_to_young_generation` inserts the id of an
object moved by table growth; the provided `write_barrier.rs` predates it). -/
structure OTState where
  base : Nat
  length : Nat
  free : Nat
  words : Nat → Nat
  heapPointer : Nat
  lastHeapPointer : Nat
  heapBase : Nat
  remembered : List Nat

/-- End address of the object table (`ObjectTable::end`). -/
def OTState.tableEnd (s : OTState) : Nat := s.base + WORD_SIZE * s.length

/-- Raw store of one word of linear memory. -/
def OTState.writeWord (s : OTState) (a v : Nat) : OTState :=
  { s with words := fun x => if x = a then v else s.words x }

/-- `ObjectTable::index_to_object_id`: the skewed address of slot `i`. -/
def OTState.indexToObjectId (s : OTState) (i : Nat) : Nat :=
  skew (s.base + WORD_SIZE * i)

/-- `ObjectTable::write_element`. -/
def OTState.writeElement (s : OTState) (objectId v : Nat) : OTState :=
  s.writeWord (unskew objectId) v

/-- `ObjectTable::read_element`. -/
def OTState.readElement (s : OTState) (objectId : Nat) : Nat :=
  s.words (unskew objectId)

/-- `ObjectTable::push_free_id`: store the current top of the free stack in
the slot and make the id the new top. -/
def OTState.pushFreeId (s : OTState) (objectId : Nat) : OTState :=
  { s.writeElement objectId s.free with free := objectId }

/-- `ObjectTable::add_free_range(start..start+n)`: push the ids of the `n`
slots in reverse index order (`range.rev()`), so slot `start` ends on top. -/
def OTState.addFreeRange (s : OTState) (start : Nat) : Nat → OTState
  | 0 => s
  | n + 1 => (s.pushFreeId (s.indexToObjectId (start + n))).addFreeRange start n

/-- `mem_utils::memcpy_words(to, from, n)` on the word memory (the helper
itself is `mem_utils.rs`, not provided; modelled from the spec as a plain
word-wise copy). -/
def OTState.memcpyWords (s : OTState) (toAddr fromAddr : Nat) : Nat → OTState
  | 0 => s
  | n + 1 =>
    let s' := s.memcpyWords toAddr fromAddr n
    s'.writeWord (toAddr + WORD_SIZE * n) (s'.words (fromAddr + WORD_SIZE * n))

/-- Modelled from the spec: `Memory::alloc_words` bump-allocates fresh
storage at the heap pointer (`memory.rs` not provided). -/
def OTState.allocWords (s : OTState) (n : Nat) : Nat × OTState :=
  (s.heapPointer, { s with heapPointer := s.heapPointer + WORD_SIZE * n })

/-- Modelled from the spec: `has_object_header(tag)` distinguishes object
blocks from the two filler blocks (`types.rs` not provided). -/
def hasObjectHeader (tag : Nat) : Bool :=
  ¬(tag = TAG_FREE_SPACE ∨ tag = TAG_ONE_WORD_FILLER)

/-- Modelled from the spec: `block_size(address)` derives the size in words
of a block from its header (`types.rs` not provided).  We model the layout
as: word 0 the raw tag, word 1 the object id (for object blocks) or the size
(for `TAG_FREE_SPACE`), word 2 the block size in words for object blocks. -/
def OTState.blockSize (s : OTState) (a : Nat) : Nat :=
  if s.words a = TAG_ONE_WORD_FILLER then 1
  else if s.words a = TAG_FREE_SPACE then s.words (a + WORD_SIZE)
  else s.words (a + 2 * WORD_SIZE)

/-- Modelled layout companion of `OTState.blockSize`: the object id stored in
the header of an object block (`Obj::object_id`, `types.rs` not provided). -/
def OTState.blockObjectId (s : OTState) (a : Nat) : Nat :=
  s.words (a + WORD_SIZE)

/-- The object branch of `ObjectTable::grow_table`: relocate the object
blocking the table extension to a fresh allocation at the top of the heap
(`memcpy_words` then `move_object` on its id) and, if its old address was in
the old generation (`old_address < last_heap_pointer`), insert its id into
the young remembered set. -/
def OTState.relocateBlock (s : OTState) : OTState :=
  let blockAddr := s.tableEnd
  let size := s.blockSize blockAddr
  let objectId := s.blockObjectId blockAddr
  let (newAddress, sA) := s.allocWords size
  let sB := sA.memcpyWords newAddress blockAddr size
  let sC := sB.writeElement objectId newAddress
  if blockAddr < s.lastHeapPointer then
    { sC with remembered := objectId :: sC.remembered }
  else sC

/-- `ObjectTable::grow_table`: read the block just after the table end; if it
carries an object header, relocate it (see `OTState.relocateBlock`); then
turn the vacated words into free-stack entries and advance the heap base to
the new table end. -/
def OTState.growTable (s : OTState) : OTState :=
  let size := s.blockSize s.tableEnd
  let s1 := if hasObjectHeader (s.words s.tableEnd) then s.relocateBlock else s
  let s2 := { s1 with length := s1.length + size }
  let s3 := s2.addFreeRange s1.length size
  { s3 with heapBase := s3.tableEnd }

/-- `ObjectTable::pop_free_id`: grow the table first when the free stack is
empty, then pop its top. -/
def OTState.popFreeId (s : OTState) : Nat × OTState :=
  let s := if s.free = NULL_OBJECT_ID then s.growTable else s
  let objectId := s.free
  (objectId, { s with free := s.readElement objectId })

/-- `ObjectTable::new_object_id(address)`: pop a free id and store the
address in its slot. -/
def OTState.newObjectId (s : OTState) (address : Nat) : Nat × OTState :=
  let (objectId, s1) := s.popFreeId
  (objectId, s1.writeElement objectId address)

/-- `ObjectTable::free_object_id`. -/
def OTState.freeObjectId (s : OTState) (objectId : Nat) : OTState :=
  s.pushFreeId objectId

/-- `ObjectTable::get_object_address`. -/
def OTState.getObjectAddress (s : OTState) (objectId : Nat) : Nat :=
  s.readElement objectId

/-- `ObjectTable::move_object(id, new_address)`: overwrite the slot. -/
def OTState.moveObject (s : OTState) (objectId newAddress : Nat) : OTState :=
  s.writeElement objectId newAddress

/-- Concrete object-table state used by the closed witnesses: a table of two
slots at base address 4, slot ids `skew 4 = 3` and `skew 8 = 7`, with id 3 on
the free stack and id 7 allocated at address 0. -/
def otWitnessState : OTState :=
  ⟨4, 2, 3, fun x => if x = 4 then 7 else 0, 100, 50, 12, []⟩

/-- Concrete object-table state with an empty free stack (table of one slot
at base 4, its id being `skew 4 = 3`) whose following heap block at address
8 is an object of 3 words with header id 3, below the last heap pointer 40;
used by the table-growth witness. -/
def otGrowWitnessState : OTState :=
  ⟨4, 1, 0, fun x => if x = 8 then TAG_OBJECT else if x = 12 then 3 else if x = 16 then 3 else 0,
    100, 40, 8, []⟩

/-! ## Array slicing (`gc/incremental/phases/mark_phase.rs`, lines 107-123) -/

/-- `SLICE_INCREMENT` of `mark_phase.rs::mark_fields` (also used by the
modelled `array_slicing.rs`). -/
def SLICE_INCREMENT : Nat := 128

/-- Modelled from the spec: the raw tag word packs the tag with the mark
flag ("a raw tag word whose low bit also encodes a mark flag";
`types.rs` not provided). -/
def rawTag (tag : Nat) (marked : Bool) : Nat := 2 * tag + (if marked then 1 else 0)

/-- Modelled from the spec: `types.rs::mark(tag)` produces the raw tag with
the mark flag set (`types.rs` not provided). -/
def markTag (tag : Nat) : Nat := rawTag tag true

/-- Result of the array-slice closure in `mark_phase.rs::mark_fields`:
the slice end returned to `visit_pointer_fields`, the raw tag written into
the array header, whether the array was re-pushed on the mark stack, and
the amount added to the step counter. -/
structure SliceVisit where
  returnedEnd : Nat
  newRawTag : Nat
  repushed : Bool
  stepsAdded : Nat
deriving DecidableEq, Repr

/-- The array-slice closure of `MarkIncrement::mark_fields` in
`mark_phase.rs` (lines 107-123): if more than `SLICE_INCREMENT` elements
remain, write the marked tag `new_start`, re-push the array and add
`SLICE_INCREMENT` steps; otherwise restore `TAG_ARRAY` and add
`len % SLICE_INCREMENT` steps. -/
def markPhaseSliceVisit (len sliceStart : Nat) : SliceVisit :=
  if len - sliceStart > SLICE_INCREMENT then
    { returnedEnd := sliceStart + SLICE_INCREMENT
      newRawTag := markTag (sliceStart + SLICE_INCREMENT)
      repushed := true
      stepsAdded := SLICE_INCREMENT }
  else
    { returnedEnd := len
      newRawTag := markTag TAG_ARRAY
      repushed := false
      stepsAdded := len % SLICE_INCREMENT }

/-- Modelled from the spec: `visit_pointer_fields` scans the array elements
from `slice_start` up to the end returned by the slice closure
(`visitor.rs` not provided); this is the number of elements actually scanned
in the slice. -/
def sliceElementsScanned (len sliceStart : Nat) : Nat :=
  (markPhaseSliceVisit len sliceStart).returnedEnd - sliceStart

/-- Modelled from the spec and the slice closure of `mark_phase.rs`:
`array_slicing.rs::slice_array` (not provided) — decode the slice start from
the header tag, write the new tag and return
`(sliceStart, sliceEnd, newTag)`. -/
def slice_array (tag len : Nat) : Nat × Nat × Nat :=
  let start := if tag ≥ TAG_ARRAY_SLICE_MIN then tag else 0
  if len - start > SLICE_INCREMENT then
    (start, start + SLICE_INCREMENT, start + SLICE_INCREMENT)
  else
    (start, len, TAG_ARRAY)

/-! ## Phase machine model (`gc/incremental.rs`)

Objects are modelled at word granularity where the claims need it (model of
`evacuation_increment.rs` below) and at object granularity here: an object
has a tag, a mark flag, a forwarding address, its value fields and its block
size in words. -/

/-- A tagged value (`types.rs::Value`, modelled from the spec): a scalar or
a (skew-abstracted) pointer to an object header address. -/
inductive MVal where
  | scalar (n : Nat)
  | ptr (a : Nat)
deriving DecidableEq, Repr

/-- Object-granular model of a heap block: tag, mark flag, forwarding
address (equal to the object's own address unless evacuated), value fields
(array elements for arrays) and block size in words. -/
structure MObj where
  tag : Nat
  marked : Bool
  forward : Nat
  fields : List MVal
  sizeWords : Nat
deriving Repr

instance : Inhabited MObj := ⟨⟨TAG_OBJECT, false, 0, [], 0⟩⟩

/-- Modelled from the spec: one partition of the partitioned heap
(`partitioned_heap.rs` not provided): evacuation flag, allocation-partition
flag, marked bytes, partition size and the addresses of its blocks in
iteration order. -/
structure MPart where
  toBeEvacuated : Bool
  isAllocation : Bool
  markedBytes : Nat
  sizeBytes : Nat
  objAddrs : List Nat
deriving Repr

instance : Inhabited MPart := ⟨⟨false, false, 0, 0, []⟩⟩

/-- Object-granular heap model: heap base address, object map, total marked
space, bump-allocation pointer and the partition table (modelled from the
spec, `partitioned_heap.rs` not provided). -/
structure MHeap where
  base : Nat
  objs : Nat → MObj
  markedSpace : Nat
  allocPtr : Nat
  parts : List MPart

/-- Modelled from the spec: `HeapIteratorState` — resumable position
`(partition index, cursor within the partition)`
(`partitioned_heap.rs` not provided). -/
structure IterState where
  partitionIndex : Nat
  cursor : Nat
deriving DecidableEq, Repr

/-- `MarkState { mark_stack, complete }` of `gc/incremental.rs` (the mark
stack is modelled as a list of object addresses; `mark_stack.rs` is not
provided and the spec describes a stack of values with O(1) push/pop). -/
structure MarkState where
  stack : List Nat
  complete : Bool
deriving DecidableEq, Repr

/-- `Phase` of `gc/incremental.rs`: `Pause`, `Mark`, `Evacuate`, `Update`,
`Stop`. -/
inductive GPhase where
  | pause
  | mark (ms : MarkState)
  | evacuate (it : IterState)
  | update (it : IterState)
  | stop
deriving DecidableEq, Repr

/-- Global GC state: the phase singleton `PHASE`, the partitioned heap
singleton, the mutator-visible location store written through the barriers,
and the allocation counter `ALLOCATION_COUNT`. -/
structure GcS where
  phase : GPhase
  heap : MHeap
  locs : Nat → MVal
  allocCount : Nat

/-- Modelled from the spec: `Value::points_to_or_beyond(base)` — a pointer
at or beyond the address (`types.rs` not provided). -/
def pointsToOrBeyond (base : Nat) : MVal → Bool
  | .ptr a => decide (base ≤ a)
  | .scalar _ => false

/-- Update one object of the heap. -/
def MHeap.setObj (h : MHeap) (a : Nat) (o : MObj) : MHeap :=
  { h with objs := fun x => if x = a then o else h.objs x }

/-- Modelled from the spec: `PartitionedHeap::record_marked_space(obj)` adds
`block_size(obj)` to the marked space (`partitioned_heap.rs` not
provided). -/
def MHeap.recordMarkedSpace (h : MHeap) (a : Nat) : MHeap :=
  { h with markedSpace := h.markedSpace + (h.objs a).sizeWords }

/-- Modelled from the spec: `Value::forward_if_possible()` resolves the
forwarding pointer of the referenced object (`types.rs` not provided). -/
def forwardIfPossible (h : MHeap) : MVal → MVal
  | .ptr a => .ptr ((h.objs a).forward)
  | v => v

/-- State of a `MarkIncrement` (`mark_increment.rs`): the heap, the bounded
time, and the borrowed `mark_stack` and `complete` fields of the mark
state. -/
structure MarkM where
  heap : MHeap
  time : BoundedTime
  stack : List Nat
  complete : Bool

/-- `MarkIncrement::mark_object` (`mark_increment.rs`, lines 92-107): tick;
return if already marked; else set the mark bit, record the marked space and
push the object on the mark stack. -/
def MarkM.markObject (m : MarkM) (v : MVal) : MarkM :=
  let m := { m with time := m.time.tick }
  match v with
  | .ptr a =>
    if (m.heap.objs a).marked then m
    else
      let h1 := m.heap.setObj a { m.heap.objs a with marked := true }
      let h2 := h1.recordMarkedSpace a
      { m with heap := h2, stack := a :: m.stack }
  | .scalar _ => m

/-- Modelled from the spec: the pointer-field visit of
`visit_pointer_fields` — `mark_object` on every field that is a pointer at
or beyond the heap base (`visitor.rs` not provided). -/
def MarkM.visitFields (m : MarkM) (vs : List MVal) : MarkM :=
  vs.foldl (fun m v => if pointsToOrBeyond m.heap.base v then m.markObject v else m) m

/-- Write a (marked) tag value into an object header, as
`(*array).header.raw_tag = mark(...)` does. -/
def MarkM.setRawTag (m : MarkM) (a tagValue : Nat) : MarkM :=
  { m with heap := m.heap.setObj a { m.heap.objs a with tag := tagValue, marked := true } }

/-- `MarkIncrement::mark_fields` (`mark_increment.rs`, lines 109-130): for
arrays, run `slice_array` (write the new tag), re-push the array when the
written tag is a slice tag, advance the time by the number of elements of
the slice and visit them; for all other objects visit all pointer fields. -/
def MarkM.markFields (m : MarkM) (a : Nat) : MarkM :=
  let o := m.heap.objs a
  if o.tag = TAG_ARRAY ∨ o.tag ≥ TAG_ARRAY_SLICE_MIN then
    let len := o.fields.length
    let r := slice_array o.tag len
    let m1 := m.setRawTag a r.2.2
    let m2 := if r.2.2 ≥ TAG_ARRAY_SLICE_MIN then { m1 with stack := a :: m1.stack } else m1
    let m3 := { m2 with time := m2.time.advance (r.2.1 - r.1) }
    m3.visitFields ((o.fields.drop r.1).take (r.2.1 - r.1))
  else
    m.visitFields o.fields

/-- `MarkIncrement::complete_marking`. -/
def MarkM.completeMarking (m : MarkM) : MarkM := { m with complete := true }

/-- The pop loop of `MarkIncrement::run` (`mark_increment.rs`, lines 73-90)
with explicit fuel: pop an object, mark its fields, tick, and stop when the
time is over; complete marking when the stack empties.  The fuel is
sufficient whenever `fuel + steps ≥ limit + 2` because every iteration
ticks at least once. -/
def MarkM.runLoop : Nat → MarkM → MarkM
  | 0, m => m
  | fuel + 1, m =>
    match m.stack with
    | [] => m.completeMarking
    | a :: rest =>
      let m1 := MarkM.markFields { m with stack := rest } a
      let m2 := { m1 with time := m1.time.tick }
      if m2.time.isOver then m2 else MarkM.runLoop fuel m2

/-- `MarkIncrement::run`: return immediately when marking is already
complete, else run the pop loop. -/
def MarkM.run (m : MarkM) : MarkM :=
  if m.complete then m else MarkM.runLoop (m.time.limit + 2) m

/-- Partition lookup (modelled from the spec, `partitioned_heap.rs` not
provided). -/
def MHeap.getPart (h : MHeap) (i : Nat) : MPart := h.parts.getD i default

/-- Modelled from the spec: `HeapIteratorState::completed()` — the iterator
has passed the last partition (`partitioned_heap.rs` not provided). -/
def IterState.completed (it : IterState) (h : MHeap) : Bool :=
  decide (it.partitionIndex ≥ h.parts.length)

/-- State of an `EvacuationIncrement` (`evacuation_increment.rs`). -/
structure EvacM where
  heap : MHeap
  time : BoundedTime
  it : IterState

/-- Modelled from the spec: the current object of the partitioned heap
iterator (`partitioned_heap.rs` not provided). -/
def EvacM.currentObject (e : EvacM) : Nat :=
  (e.heap.getPart e.it.partitionIndex).objAddrs.getD e.it.cursor 0

/-- Modelled from the spec: `next_object()` of the heap iterator — advance
the cursor, moving to the next partition when the current one is exhausted
(`partitioned_heap.rs` not provided). -/
def EvacM.nextObject (e : EvacM) : EvacM :=
  let p := e.heap.getPart e.it.partitionIndex
  if e.it.cursor + 1 < p.objAddrs.length then
    { e with it := ⟨e.it.partitionIndex, e.it.cursor + 1⟩ }
  else
    { e with it := ⟨e.it.partitionIndex + 1, 0⟩ }

/-- Object-granular model of `EvacuationIncrement::evacuate_object`
(`evacuation_increment.rs`, lines 56-72): allocate `block_size` words, copy
the object and set both forward fields to the new address (the word-level
model below covers the byte copy). -/
def EvacM.evacuateObject (e : EvacM) (a : Nat) : EvacM :=
  let o := e.heap.objs a
  let newA := e.heap.allocPtr
  let h1 := { e.heap with allocPtr := e.heap.allocPtr + WORD_SIZE * o.sizeWords }
  let h2 := h1.setObj newA { o with forward := newA }
  let h3 := h2.setObj a { o with forward := newA }
  { e with heap := h3 }

/-- `EvacuationIncrement::evacuate_partition` (`evacuation_increment.rs`,
lines 45-54) with explicit fuel: while the iterator is inside the partition
and the time is not over, evacuate the current object if it is marked,
advance and tick. -/
def EvacM.evacuatePartitionLoop : Nat → EvacM → Nat → EvacM
  | 0, e, _ => e
  | fuel + 1, e, idx =>
    if e.it.partitionIndex = idx ∧ e.time.isOver = false then
      let a := e.currentObject
      let e1 := if (e.heap.objs a).marked then e.evacuateObject a else e
      let e2 := e1.nextObject
      let e3 := { e2 with time := e2.time.tick }
      EvacM.evacuatePartitionLoop fuel e3 idx
    else e

/-- `EvacuationIncrement::run` (`evacuation_increment.rs`, lines 31-43) with
explicit fuel over the partitions: evacuate partitions flagged
`to_be_evacuated`, skip the others, and stop when the time is over. -/
def EvacM.runLoop : Nat → EvacM → EvacM
  | 0, e => e
  | fuel + 1, e =>
    if e.it.partitionIndex < e.heap.parts.length then
      if (e.heap.getPart e.it.partitionIndex).toBeEvacuated then
        let e1 := EvacM.evacuatePartitionLoop
          ((e.heap.getPart e.it.partitionIndex).objAddrs.length + 1) e e.it.partitionIndex
        if e1.time.isOver then e1 else EvacM.runLoop fuel e1
      else
        EvacM.runLoop fuel { e with it := ⟨e.it.partitionIndex + 1, 0⟩ }
    else e

/-- `EvacuationIncrement::run` entry point. -/
def EvacM.run (e : EvacM) : EvacM := EvacM.runLoop (e.heap.parts.length + 1) e

/-- Forward all pointer fields of one object
(`update_new_allocation`-style field update). -/
def MHeap.forwardFields (h : MHeap) (a : Nat) : MHeap :=
  let o := h.objs a
  let newFields := o.fields.map
    (fun v => if pointsToOrBeyond h.base v then forwardIfPossible h v else v)
  h.setObj a { o with fields := newFields }

/-- Modelled from the spec: one object step of the update increment —
forward every pointer field and clear the mark bit
(`update_increment.rs` not provided; spec section 4.5). -/
def MHeap.updateObj (h : MHeap) (a : Nat) : MHeap :=
  let h1 := h.forwardFields a
  h1.setObj a { h1.objs a with marked := false }

/-- State of an `UpdateIncrement` (modelled from the spec,
`update_increment.rs` not provided). -/
structure UpdM where
  heap : MHeap
  time : BoundedTime
  it : IterState

/-- Modelled from the spec: `next_object()` for the update iterator. -/
def UpdM.nextObject (u : UpdM) : UpdM :=
  let p := u.heap.getPart u.it.partitionIndex
  if u.it.cursor + 1 < p.objAddrs.length then
    { u with it := ⟨u.it.partitionIndex, u.it.cursor + 1⟩ }
  else
    { u with it := ⟨u.it.partitionIndex + 1, 0⟩ }

/-- Modelled from the spec: the per-partition loop of the update increment —
update each object, tick, stop at the loop head when the time is over
(`update_increment.rs` not provided; spec section 4.5). -/
def UpdM.updatePartitionLoop : Nat → UpdM → Nat → UpdM
  | 0, u, _ => u
  | fuel + 1, u, idx =>
    if u.it.partitionIndex = idx ∧ u.time.isOver = false then
      let a := (u.heap.getPart u.it.partitionIndex).objAddrs.getD u.it.cursor 0
      let u1 := { u with heap := u.heap.updateObj a }
      let u2 := u1.nextObject
      let u3 := { u2 with time := u2.time.tick }
      UpdM.updatePartitionLoop fuel u3 idx
    else u

/-- Modelled from the spec: the update increment iterates the partitions
that are not scheduled for evacuation (originals in evacuated partitions are
unreachable after forwarding; spec section 4.5). -/
def UpdM.runLoop : Nat → UpdM → UpdM
  | 0, u => u
  | fuel + 1, u =>
    if u.it.partitionIndex < u.heap.parts.length then
      if (u.heap.getPart u.it.partitionIndex).toBeEvacuated then
        UpdM.runLoop fuel { u with it := ⟨u.it.partitionIndex + 1, 0⟩ }
      else
        let u1 := UpdM.updatePartitionLoop
          ((u.heap.getPart u.it.partitionIndex).objAddrs.length + 1) u u.it.partitionIndex
        if u1.time.isOver then u1 else UpdM.runLoop fuel u1
    else u

/-- Update increment entry point (modelled from the spec). -/
def UpdM.run (u : UpdM) : UpdM := UpdM.runLoop (u.heap.parts.length + 1) u

/-- `IncrementalGC::pausing`. -/
def GcS.pausing (s : GcS) : Bool :=
  match s.phase with
  | .pause => true
  | _ => false

/-- `IncrementalGC::increment` (`gc/incremental.rs`, lines 225-238):
dispatch the bounded-time increment on the current phase. -/
def GcS.increment (s : GcS) (t : BoundedTime) : GcS × BoundedTime :=
  match s.phase with
  | .pause => (s, t)
  | .stop => (s, t)
  | .mark ms =>
    let r := MarkM.run ⟨s.heap, t, ms.stack, ms.complete⟩
    ({ s with phase := .mark ⟨r.stack, r.complete⟩, heap := r.heap }, r.time)
  | .evacuate it =>
    let r := EvacM.run ⟨s.heap, t, it⟩
    ({ s with phase := .evacuate r.it, heap := r.heap }, r.time)
  | .update it =>
    let r := UpdM.run ⟨s.heap, t, it⟩
    ({ s with phase := .update r.it, heap := r.heap }, r.time)

/-- `IncrementalGC::start_marking` (`gc/incremental.rs`, lines 241-257):
install a fresh mark state (empty stack, `complete = false`) and mark the
roots; roots are modelled as the locations of the root fields, and
`visit_roots` yields each root field that points into the dynamic heap
(`roots.rs` not provided; spec section 4.8). -/
def GcS.startMarking (roots : List Nat) (s : GcS) (t : BoundedTime) : GcS × BoundedTime :=
  let init : MarkM := ⟨s.heap, t, [], false⟩
  let r := roots.foldl (fun m rloc =>
      if pointsToOrBeyond m.heap.base (s.locs rloc) then
        let m1 := m.markObject (s.locs rloc)
        { m1 with time := m1.time.tick }
      else m) init
  ({ s with phase := .mark ⟨r.stack, r.complete⟩, heap := r.heap }, r.time)

/-- `IncrementalGC::mark_completed` (without the debug assertion). -/
def GcS.markCompleted (s : GcS) : Bool :=
  match s.phase with
  | .mark ms => ms.complete
  | _ => false

/-- Modelled from the spec: `PartitionedHeap::plan_evacuations` flags every
partition that is not the current allocation partition and has a high
garbage share (modelled rule: less than half marked;
`partitioned_heap.rs` not provided and the exact threshold is left open by
the spec). -/
def MHeap.planEvacuations (h : MHeap) : MHeap :=
  { h with parts := h.parts.map (fun p =>
      { p with toBeEvacuated := !p.isAllocation && decide (2 * p.markedBytes < p.sizeBytes) }) }

/-- `IncrementalGC::start_evacuating` (`gc/incremental.rs`, lines 274-279):
fresh iterator state, `plan_evacuations` on the heap, then install the
`Evacuate` phase. -/
def GcS.startEvacuating (s : GcS) (t : BoundedTime) : GcS × BoundedTime :=
  ({ s with heap := s.heap.planEvacuations, phase := .evacuate ⟨0, 0⟩ }, t)

/-- `IncrementalGC::evacuation_completed`. -/
def GcS.evacuationCompleted (s : GcS) : Bool :=
  match s.phase with
  | .evacuate it => it.completed s.heap
  | _ => false

/-- Modelled from the spec: `UpdateIncrement::update_roots` — store the
forwarding resolution of each root field (`update_increment.rs` not
provided; spec section 4.5). -/
def GcS.updateRoots (roots : List Nat) (s : GcS) : GcS :=
  roots.foldl (fun s rloc =>
    { s with locs := fun x =>
        if x = rloc then forwardIfPossible s.heap (s.locs x) else s.locs x }) s

/-- `IncrementalGC::start_updating` (`gc/incremental.rs`, lines 288-298):
fresh iterator state, install the `Update` phase, update the roots. -/
def GcS.startUpdating (roots : List Nat) (s : GcS) (t : BoundedTime) : GcS × BoundedTime :=
  (GcS.updateRoots roots { s with phase := .update ⟨0, 0⟩ }, t)

/-- `IncrementalGC::updating_completed`. -/
def GcS.updatingCompleted (s : GcS) : Bool :=
  match s.phase with
  | .update it => it.completed s.heap
  | _ => false

/-- Modelled from the spec: `PartitionedHeap::free_evacuated_partitions`
resets each evacuated partition (`partitioned_heap.rs` not provided). -/
def MHeap.freeEvacuatedPartitions (h : MHeap) : MHeap :=
  { h with parts := h.parts.map (fun p =>
      if p.toBeEvacuated then
        { p with toBeEvacuated := false, markedBytes := 0, objAddrs := [] }
      else p) }

/-- `IncrementalGC::complete_run`: free the evacuated partitions and return
to `Pause`. -/
def GcS.completeRun (s : GcS) : GcS :=
  { s with heap := s.heap.freeEvacuatedPartitions, phase := .pause }

/-- Tail of `empty_call_stack_increment` after the update increment: the
`updating_completed` check and `complete_run`. -/
def GcS.ecsTail2 (st : GcS × BoundedTime) : GcS × BoundedTime :=
  if st.1.updatingCompleted then (st.1.completeRun, st.2) else st

/-- Tail of `empty_call_stack_increment` after the evacuation increment:
the `evacuation_completed` check, `start_updating` and its increment, then
`ecsTail2`. -/
def GcS.ecsTail1 (roots : List Nat) (st : GcS × BoundedTime) : GcS × BoundedTime :=
  GcS.ecsTail2
    (if st.1.evacuationCompleted then
      let st1 := GcS.startUpdating roots st.1 st.2
      GcS.increment st1.1 st1.2
    else st)

/-- Tail of `empty_call_stack_increment` after the first increment: the
`mark_completed` check, `start_evacuating` and its increment, then
`ecsTail1`. -/
def GcS.ecsAfterMark (roots : List Nat) (st : GcS × BoundedTime) : GcS × BoundedTime :=
  GcS.ecsTail1 roots
    (if st.1.markCompleted then
      let st1 := GcS.startEvacuating st.1 st.2
      GcS.increment st1.1 st1.2
    else st)

/-- `IncrementalGC::empty_call_stack_increment` (`gc/incremental.rs`, lines
194-216), without the debug-build sanity checks. -/
def GcS.emptyCallStackIncrement (roots : List Nat) (s : GcS) (t : BoundedTime) :
    GcS × BoundedTime :=
  let st0 := if s.pausing then GcS.startMarking roots s t else (s, t)
  let st1 := GcS.increment st0.1 st0.2
  GcS.ecsAfterMark roots st1

/-! ## Barriers (`gc/incremental.rs` lines 324-447 and
`gc/incremental/barriers.rs`) -/

/-- `pre_write_barrier` (`gc/incremental.rs`, lines 329-341): only effective
in the mark phase; if the overwritten value is a heap pointer at or beyond
the heap base, mark it while marking is incomplete, otherwise release-assert
that it is already marked (`none` models the trap). -/
def GcS.preWriteBarrier (s : GcS) (overwritten : MVal) : Option GcS :=
  match s.phase with
  | .mark ms =>
    if pointsToOrBeyond s.heap.base overwritten then
      if ms.complete = false then
        let r := MarkM.markObject ⟨s.heap, BoundedTime.new 0, ms.stack, ms.complete⟩ overwritten
        some { s with heap := r.heap, phase := .mark ⟨r.stack, r.complete⟩ }
      else
        match overwritten with
        | .ptr a => if (s.heap.objs a).marked then some s else none
        | .scalar _ => none
    else some s
  | _ => some s

/-- `write_with_barrier` (`barriers.rs`, lines 24-39): fast-path plain store
when the phase is `Pause`; otherwise run the pre-write barrier on the
overwritten value and store `value.forward_if_possible()`. -/
def GcS.writeWithBarrier (s : GcS) (loc : Nat) (v : MVal) : Option GcS :=
  match s.phase with
  | .pause => some { s with locs := fun x => if x = loc then v else s.locs x }
  | _ =>
    (s.preWriteBarrier (s.locs loc)).map fun s1 =>
      { s1 with locs := fun x =>
          if x = loc then forwardIfPossible s1.heap v else s1.locs x }

/-- `mark_new_allocation` (`gc/incremental.rs`, lines 374-388): release
`assert!(!object.is_marked())` (modelled by `none`), then set the mark bit
and record the block size as marked space. -/
def GcS.markNewAllocation (s : GcS) (a : Nat) : Option GcS :=
  if (s.heap.objs a).marked then none
  else
    some { s with heap :=
      ((s.heap.setObj a { s.heap.objs a with marked := true }).recordMarkedSpace a) }

/-- `update_new_allocation` (`gc/incremental.rs`, lines 410-429): forward
all pointer fields of the new object. -/
def GcS.updateNewAllocation (s : GcS) (a : Nat) : GcS :=
  { s with heap := s.heap.forwardFields a }

/-- `post_allocation_barrier` (`gc/incremental.rs`, lines 347-353). -/
def GcS.postAllocationBarrier (s : GcS) (a : Nat) : Option GcS :=
  match s.phase with
  | .mark _ | .evacuate _ => s.markNewAllocation a
  | .update _ => some (s.updateNewAllocation a)
  | .pause | .stop => some s

/-- `ALLOCATION_INCREMENT_INTERVAL` (`gc/incremental.rs`). -/
def ALLOCATION_INCREMENT_INTERVAL : Nat := 100

/-- `allocation_increment` (`gc/incremental.rs`, lines 435-447): when a GC
run is active, count allocations and run a short-interval increment every
`ALLOCATION_INCREMENT_INTERVAL` allocations. -/
def GcS.allocationIncrement (s : GcS) : GcS :=
  let running :=
    match s.phase with
    | .mark _ | .evacuate _ | .update _ => true
    | .pause | .stop => false
  if running then
    let count := s.allocCount + 1
    if count = ALLOCATION_INCREMENT_INTERVAL then
      (GcS.increment { s with allocCount := 0 } BoundedTime.shortInterval).1
    else { s with allocCount := count }
  else s

/-- `allocation_barrier` (`barriers.rs`, lines 48-60): no-op when paused,
else run the post-allocation barrier followed by the allocation-piggyback
increment. -/
def GcS.allocationBarrier (s : GcS) (a : Nat) : Option GcS :=
  match s.phase with
  | .pause => some s
  | _ => (s.postAllocationBarrier a).map GcS.allocationIncrement

/-- `stop_gc_on_upgrade` (`gc/incremental.rs`, lines 452-455). -/
def GcS.stopGcOnUpgrade (s : GcS) : GcS := { s with phase := .stop }

/-! ## Word-level evacuation model
(`gc/incremental/phases/evacuation_increment.rs`)

For the byte-exact statement of evacuation, blocks are modelled on a word
memory.  Layout (modelled from the spec, `types.rs` not provided): word 0 is
the raw tag (low bit = mark flag), word 1 the forward value (the skewed
address of the forwarding target), word 2 the block size in words. -/

/-- Word-memory state of the evacuation model: the memory and the bump heap
pointer (`Memory::alloc_words`, modelled from the spec). -/
structure EvMem where
  words : Nat → Nat
  hp : Nat

/-- Raw store of one word. -/
def EvMem.writeWord (m : EvMem) (a v : Nat) : EvMem :=
  { m with words := fun x => if x = a then v else m.words x }

/-- `mem_utils::memcpy_words` on the word memory (modelled from the spec as
a sequential word-wise copy; `mem_utils.rs` not provided). -/
def EvMem.memcpyWords (m : EvMem) (toAddr fromAddr : Nat) : Nat → EvMem
  | 0 => m
  | n + 1 =>
    let m' := m.memcpyWords toAddr fromAddr n
    m'.writeWord (toAddr + WORD_SIZE * n) (m'.words (fromAddr + WORD_SIZE * n))

/-- Mark flag of the block at `a` (low bit of the raw tag word; modelled
from the spec). -/
def EvMem.isMarked (m : EvMem) (a : Nat) : Bool := m.words a % 2 = 1

/-- `block_size(a)` in the word-level layout (modelled from the spec:
derived from the header; stored in the third header word here). -/
def EvMem.blockSize (m : EvMem) (a : Nat) : Nat := m.words (a + 2 * WORD_SIZE)

/-- Forward value of the block at `a` (second header word). -/
def EvMem.forwardValue (m : EvMem) (a : Nat) : Nat := m.words (a + WORD_SIZE)

/-- `Obj::is_forwarded`: the forward value differs from the object's own
skewed address (modelled from the spec). -/
def EvMem.isForwarded (m : EvMem) (a : Nat) : Bool := m.forwardValue a ≠ skew a

/-- `EvacuationIncrement::evacuate_object` (`evacuation_increment.rs`,
lines 56-72) on the word memory: `size = block_size(original)`;
`new_address = alloc_words(size)`; `memcpy_words(copy, original, size)`;
`copy.forward = new_address; original.forward = new_address`. -/
def EvMem.evacuateObject (m : EvMem) (original : Nat) : EvMem :=
  let size := m.blockSize original
  let newValue := skew m.hp
  let copy := m.hp
  let m1 := { m with hp := m.hp + WORD_SIZE * size }
  let m2 := m1.memcpyWords copy original size
  let m3 := m2.writeWord (copy + WORD_SIZE) newValue
  let m4 := m3.writeWord (original + WORD_SIZE) newValue
  m4

/-- The inner loop of `EvacuationIncrement::evacuate_partition`
(`evacuation_increment.rs`, lines 45-54) over the block addresses of one
partition: while the time is not over, evacuate the current block if it is
marked, advance and tick.  The walk stops only at block boundaries. -/
def EvMem.evacuatePartition (m : EvMem) (t : BoundedTime) :
    List Nat → EvMem × BoundedTime
  | [] => (m, t)
  | a :: rest =>
    if t.isOver then (m, t)
    else
      let m1 := if m.isMarked a then m.evacuateObject a else m
      m1.evacuatePartition t.tick rest

/-- Well-formed partition walk: every block has at least the 3 header words
and lies below the allocation pointer, and distinct blocks occupy disjoint
word ranges. -/
def EvMem.wellFormedBlocks (m : EvMem) (addrs : List Nat) : Prop :=
  (∀ a ∈ addrs, 3 ≤ m.blockSize a ∧ a + WORD_SIZE * m.blockSize a ≤ m.hp)
  ∧ addrs.Pairwise (fun a b =>
      a + WORD_SIZE * m.blockSize a ≤ b ∨ b + WORD_SIZE * m.blockSize b ≤ a)

/-- Total size in words of the marked blocks of a partition. -/
def EvMem.sumMarkedSizes (m : EvMem) : List Nat → Nat
  | [] => 0
  | a :: rest => (if m.isMarked a then m.blockSize a else 0) + m.sumMarkedSizes rest

/-! ### Witness states for the phase-machine claims -/

/-- A one-object heap: the object at address 64 is an unmarked 2-word plain
object with no fields, self-forwarding; the heap base is 32. -/
def witnessHeap : MHeap :=
  ⟨32, fun a => if a = 64 then ⟨TAG_OBJECT, false, 64, [], 2⟩ else ⟨TAG_OBJECT, false, 0, [], 1⟩,
    0, 128, [⟨false, true, 8, 16, [64]⟩]⟩

/-- Phase-machine witness state in the mark phase with the single object 64
marked and on the mark stack, marking not yet complete. -/
def witnessMarkGc : GcS :=
  ⟨.mark ⟨[64], false⟩,
    ⟨32, fun a => if a = 64 then ⟨TAG_OBJECT, true, 64, [], 2⟩ else ⟨TAG_OBJECT, false, 0, [], 1⟩,
      2, 128, [⟨false, true, 8, 16, [64]⟩]⟩,
    fun _ => .scalar 0, 0⟩

/-- Phase-machine witness state in the pause phase. -/
def witnessPauseGc : GcS :=
  ⟨.pause, witnessHeap, fun _ => .scalar 0, 0⟩

/-- Phase-machine state stopped during evacuation: the object at 64 has
been evacuated to 128 (forward = 128), the GC is in the `Stop` phase, and
location 0 stores a pointer to 64. -/
def witnessStopGc : GcS :=
  ⟨.stop,
    ⟨32, fun a =>
        if a = 64 then ⟨TAG_OBJECT, true, 128, [], 2⟩
        else if a = 128 then ⟨TAG_OBJECT, true, 128, [], 2⟩
        else ⟨TAG_OBJECT, false, 0, [], 1⟩,
      2, 136, [⟨true, false, 8, 16, [64]⟩, ⟨false, true, 8, 16, [128]⟩]⟩,
    fun _ => .ptr 64, 0⟩

/-- Phase-machine witness state in the mark phase (incomplete marking, empty
mark stack) whose every barrier location stores a pointer to the unmarked
object 64. -/
def witnessBarrierGc : GcS :=
  ⟨.mark ⟨[], false⟩, witnessHeap, fun _ => .ptr 64, 0⟩

/-- Word-level witness memory: a marked, unforwarded 3-word object at
address 8 (raw tag `2·TAG_OBJECT + 1`, forward `skew 8 = 7`, size 3), with
the heap pointer at 20. -/
def witnessEvMem : EvMem :=
  ⟨fun x => if x = 8 then 2 * TAG_OBJECT + 1 else if x = 12 then 7 else if x = 16 then 3 else 0,
    20⟩

/-! ### Basic lemmas about the object table state -/

theorem OTState.writeWord_words (s : OTState) (a v x : Nat) :
    (s.writeWord a v).words x = if x = a then v else s.words x := rfl

theorem OTState.pushFreeId_free (s : OTState) (id : Nat) :
    (s.pushFreeId id).free = id := rfl

theorem OTState.pushFreeId_words (s : OTState) (id x : Nat) :
    (s.pushFreeId id).words x = if x = unskew id then s.free else s.words x := rfl

theorem OTState.pushFreeId_base (s : OTState) (id : Nat) :
    (s.pushFreeId id).base = s.base := rfl

theorem OTState.pushFreeId_length (s : OTState) (id : Nat) :
    (s.pushFreeId id).length = s.length := rfl

theorem OTState.addFreeRange_base (s : OTState) (start : Nat) :
    ∀ n, (s.addFreeRange start n).base = s.base := by
  intro n
  induction n generalizing s with
  | zero => rfl
  | succ n ih => simpa [OTState.addFreeRange] using ih (s.pushFreeId (s.indexToObjectId (start + n)))

theorem OTState.addFreeRange_length (s : OTState) (start : Nat) :
    ∀ n, (s.addFreeRange start n).length = s.length := by
  intro n
  induction n generalizing s with
  | zero => rfl
  | succ n ih => simpa [OTState.addFreeRange] using ih (s.pushFreeId (s.indexToObjectId (start + n)))

theorem OTState.addFreeRange_heapPointer (s : OTState) (start : Nat) :
    ∀ n, (s.addFreeRange start n).heapPointer = s.heapPointer := by
  intro n
  induction n generalizing s with
  | zero => rfl
  | succ n ih => simpa [OTState.addFreeRange] using ih (s.pushFreeId (s.indexToObjectId (start + n)))

theorem OTState.addFreeRange_remembered (s : OTState) (start : Nat) :
    ∀ n, (s.addFreeRange start n).remembered = s.remembered := by
  intro n
  induction n generalizing s with
  | zero => rfl
  | succ n ih => simpa [OTState.addFreeRange] using ih (s.pushFreeId (s.indexToObjectId (start + n)))

/-- After `add_free_range(start..start+n)` with `n > 0`, the top of the free
stack is the id of slot `start`. -/
theorem OTState.addFreeRange_free (s : OTState) (start : Nat) :
    ∀ n, 0 < n → (s.addFreeRange start n).free = skew (s.base + WORD_SIZE * start) := by
  intro n
  induction n generalizing s with
  | zero => omega
  | succ n ih =>
    intro _
    rcases Nat.eq_zero_or_pos n with h0 | hpos
    · subst h0
      simp [OTState.addFreeRange, OTState.pushFreeId_free, OTState.indexToObjectId]
    · rw [OTState.addFreeRange]
      rw [ih _ hpos]
      simp [OTState.pushFreeId_base]

/-- `add_free_range` leaves every word outside the pushed slots unchanged. -/
theorem OTState.addFreeRange_words_out (s : OTState) (start x : Nat)
    (hb : 0 < s.base) :
    ∀ n, (∀ j, j < n → x ≠ s.base + WORD_SIZE * (start + j)) →
      (s.addFreeRange start n).words x = s.words x := by
  intro n
  induction n generalizing s with
  | zero => intro _; rfl
  | succ n ih =>
    intro hx
    rw [OTState.addFreeRange]
    rw [ih _ (by simpa [OTState.pushFreeId_base] using hb)
        (fun j hj => by simpa [OTState.pushFreeId_base] using hx j (by omega))]
    rw [OTState.pushFreeId_words]
    have hne : x ≠ unskew (s.indexToObjectId (start + n)) := by
      have := hx n (by omega)
      simp only [OTState.indexToObjectId, unskew, skew, WORD_SIZE] at *
      omega
    simp [hne]

/-- The last pushed slot (`start + n - 1`) stores the previous stack top. -/
theorem OTState.addFreeRange_words_last (s : OTState) (start : Nat)
    (hb : 0 < s.base) :
    ∀ n, 0 < n →
      (s.addFreeRange start n).words (s.base + WORD_SIZE * (start + n - 1)) = s.free := by
  intro n
  induction n generalizing s with
  | zero => omega
  | succ n ih =>
    intro _
    rw [OTState.addFreeRange]
    rcases Nat.eq_zero_or_pos n with h0 | hpos
    · subst h0
      show (s.pushFreeId (s.indexToObjectId (start + 0))).words
        (s.base + WORD_SIZE * (start + 0 + 1 - 1)) = s.free
      rw [OTState.pushFreeId_words]
      rw [if_pos (by simp only [OTState.indexToObjectId, unskew, skew, WORD_SIZE]; omega)]
    · have harg : s.base + WORD_SIZE * (start + (n + 1) - 1) =
          s.base + WORD_SIZE * (start + n) := by
        simp only [WORD_SIZE]
        omega
      rw [harg]
      have hout := OTState.addFreeRange_words_out
        (s.pushFreeId (s.indexToObjectId (start + n))) start
        (s.base + WORD_SIZE * (start + n))
        (by simpa [OTState.pushFreeId_base] using hb) n
        (fun j hj => by
          simp only [OTState.pushFreeId_base, WORD_SIZE]
          omega)
      rw [hout]
      rw [OTState.pushFreeId_words]
      rw [if_pos (by simp only [OTState.indexToObjectId, unskew, skew, WORD_SIZE]; omega)]

/-- Every pushed slot except the last stores the id of the next slot:
the free list threads the vacated range in ascending index order. -/
theorem OTState.addFreeRange_words_in (s : OTState) (start : Nat)
    (hb : 0 < s.base) :
    ∀ n j, j + 1 < n →
      (s.addFreeRange start n).words (s.base + WORD_SIZE * (start + j)) =
        skew (s.base + WORD_SIZE * (start + j + 1)) := by
  intro n
  induction n generalizing s with
  | zero => omega
  | succ n ih =>
    intro j hj
    rw [OTState.addFreeRange]
    set s' := s.pushFreeId (s.indexToObjectId (start + n)) with hs'
    have hbase : s'.base = s.base := rfl
    rcases Nat.lt_or_ge (j + 1) n with hlt | hge
    · have := ih s' (by simpa [hbase] using hb) j hlt
      rw [hbase] at this
      exact this
    · have hje : j + 1 = n := by omega
      have hlast := OTState.addFreeRange_words_last s' start
        (by simpa [hbase] using hb) n (by omega)
      rw [hbase] at hlast
      have harg : start + n - 1 = start + j := by omega
      rw [harg] at hlast
      rw [hlast]
      have : s'.free = skew (s.base + WORD_SIZE * (start + j + 1)) := by
        rw [hs', OTState.pushFreeId_free]
        simp only [OTState.indexToObjectId, skew, WORD_SIZE]
        omega
      exact this

theorem OTState.memcpyWords_base (s : OTState) (toAddr fromAddr : Nat) :
    ∀ n, (s.memcpyWords toAddr fromAddr n).base = s.base := by
  intro n; induction n with
  | zero => rfl
  | succ n ih => simp [OTState.memcpyWords, OTState.writeWord, ih]

theorem OTState.memcpyWords_length (s : OTState) (toAddr fromAddr : Nat) :
    ∀ n, (s.memcpyWords toAddr fromAddr n).length = s.length := by
  intro n; induction n with
  | zero => rfl
  | succ n ih => simp [OTState.memcpyWords, OTState.writeWord, ih]

theorem OTState.memcpyWords_free (s : OTState) (toAddr fromAddr : Nat) :
    ∀ n, (s.memcpyWords toAddr fromAddr n).free = s.free := by
  intro n; induction n with
  | zero => rfl
  | succ n ih => simp [OTState.memcpyWords, OTState.writeWord, ih]

theorem OTState.memcpyWords_heapPointer (s : OTState) (toAddr fromAddr : Nat) :
    ∀ n, (s.memcpyWords toAddr fromAddr n).heapPointer = s.heapPointer := by
  intro n; induction n with
  | zero => rfl
  | succ n ih => simp [OTState.memcpyWords, OTState.writeWord, ih]

theorem OTState.memcpyWords_remembered (s : OTState) (toAddr fromAddr : Nat) :
    ∀ n, (s.memcpyWords toAddr fromAddr n).remembered = s.remembered := by
  intro n; induction n with
  | zero => rfl
  | succ n ih => simp [OTState.memcpyWords, OTState.writeWord, ih]

/-- `memcpy_words` leaves every word outside the target range unchanged. -/
theorem OTState.memcpyWords_words_out (s : OTState) (toAddr fromAddr x : Nat) :
    ∀ n, (∀ k, k < n → x ≠ toAddr + WORD_SIZE * k) →
      (s.memcpyWords toAddr fromAddr n).words x = s.words x := by
  intro n
  induction n with
  | zero => intro _; rfl
  | succ n ih =>
    intro hx
    rw [OTState.memcpyWords]
    simp only [OTState.writeWord_words]
    rw [if_neg (hx n (by omega))]
    exact ih (fun k hk => hx k (by omega))

/-- `memcpy_words` copies the source range when target and source do not
overlap (`to ≥ from + n` words). -/
theorem OTState.memcpyWords_words_in (s : OTState) (toAddr fromAddr : Nat) :
    ∀ n, fromAddr + WORD_SIZE * n ≤ toAddr →
      ∀ k, k < n →
        (s.memcpyWords toAddr fromAddr n).words (toAddr + WORD_SIZE * k) =
          s.words (fromAddr + WORD_SIZE * k) := by
  intro n
  induction n with
  | zero => omega
  | succ n ih =>
    intro hdisj k hk
    rw [OTState.memcpyWords]
    simp only [OTState.writeWord_words]
    rcases Nat.lt_or_ge k n with hlt | hge
    · rw [if_neg (by simp only [WORD_SIZE] at *; omega)]
      exact ih (by simp only [WORD_SIZE] at *; omega) k hlt
    · have hkn : k = n := by omega
      subst hkn
      rw [if_pos rfl]
      rw [OTState.memcpyWords_words_out s toAddr fromAddr _ k
        (fun k' hk' => by simp only [WORD_SIZE] at *; omega)]

/-! ### Lemmas about `relocateBlock` -/

theorem OTState.relocateBlock_base (s : OTState) : s.relocateBlock.base = s.base := by
  unfold OTState.relocateBlock
  by_cases h : s.tableEnd < s.lastHeapPointer <;>
    simp [h, OTState.allocWords, OTState.writeElement, OTState.writeWord,
      OTState.memcpyWords_base]

theorem OTState.relocateBlock_length (s : OTState) : s.relocateBlock.length = s.length := by
  unfold OTState.relocateBlock
  by_cases h : s.tableEnd < s.lastHeapPointer <;>
    simp [h, OTState.allocWords, OTState.writeElement, OTState.writeWord,
      OTState.memcpyWords_length]

theorem OTState.relocateBlock_free (s : OTState) : s.relocateBlock.free = s.free := by
  unfold OTState.relocateBlock
  by_cases h : s.tableEnd < s.lastHeapPointer <;>
    simp [h, OTState.allocWords, OTState.writeElement, OTState.writeWord,
      OTState.memcpyWords_free]

theorem OTState.relocateBlock_heapPointer (s : OTState) :
    s.relocateBlock.heapPointer =
      s.heapPointer + WORD_SIZE * s.blockSize s.tableEnd := by
  unfold OTState.relocateBlock
  by_cases h : s.tableEnd < s.lastHeapPointer <;>
    simp [h, OTState.allocWords, OTState.writeElement, OTState.writeWord,
      OTState.memcpyWords_heapPointer]

theorem OTState.relocateBlock_remembered (s : OTState) :
    s.relocateBlock.remembered =
      if s.tableEnd < s.lastHeapPointer then
        s.blockObjectId s.tableEnd :: s.remembered
      else s.remembered := by
  unfold OTState.relocateBlock
  by_cases h : s.tableEnd < s.lastHeapPointer <;>
    simp [h, OTState.allocWords, OTState.writeElement, OTState.writeWord,
      OTState.memcpyWords_remembered]

/-- The relocation copies the blocking block to the fresh allocation. -/
theorem OTState.relocateBlock_words_copy (s : OTState)
    (hhp : s.tableEnd + WORD_SIZE * s.blockSize s.tableEnd ≤ s.heapPointer)
    (hoid : unskew (s.blockObjectId s.tableEnd) < s.tableEnd) :
    ∀ k, k < s.blockSize s.tableEnd →
      s.relocateBlock.words (s.heapPointer + WORD_SIZE * k) =
        s.words (s.tableEnd + WORD_SIZE * k) := by
  intro k hk
  unfold OTState.relocateBlock
  simp only [OTState.allocWords]
  have hcopy := OTState.memcpyWords_words_in
    { s with heapPointer := s.heapPointer + WORD_SIZE * s.blockSize s.tableEnd }
    s.heapPointer s.tableEnd (s.blockSize s.tableEnd) hhp k hk
  have hne : s.heapPointer + WORD_SIZE * k ≠ unskew (s.blockObjectId s.tableEnd) := by
    simp only [WORD_SIZE] at *
    omega
  by_cases h : s.tableEnd < s.lastHeapPointer <;>
    · simp only [h, if_true, if_false, OTState.writeElement, OTState.writeWord_words,
        ite_true, ite_false]
      rw [if_neg hne]
      exact hcopy

/-- `move_object` effect of the relocation: the slot of the blocking
object's id holds the fresh allocation address. -/
theorem OTState.relocateBlock_words_slot (s : OTState) :
    s.relocateBlock.words (unskew (s.blockObjectId s.tableEnd)) = s.heapPointer := by
  unfold OTState.relocateBlock
  by_cases h : s.tableEnd < s.lastHeapPointer <;>
    simp [h, OTState.allocWords, OTState.writeElement, OTState.writeWord_words]

/-- All words below the fresh allocation other than the relocated id's slot
are unchanged by the relocation. -/
theorem OTState.relocateBlock_words_out (s : OTState) (x : Nat)
    (hx : x < s.heapPointer) (hslot : x ≠ unskew (s.blockObjectId s.tableEnd)) :
    s.relocateBlock.words x = s.words x := by
  unfold OTState.relocateBlock
  simp only [OTState.allocWords]
  have hout := OTState.memcpyWords_words_out
    { s with heapPointer := s.heapPointer + WORD_SIZE * s.blockSize s.tableEnd }
    s.heapPointer s.tableEnd x (s.blockSize s.tableEnd)
    (fun k hk => by simp only [WORD_SIZE] at *; omega)
  by_cases h : s.tableEnd < s.lastHeapPointer <;>
    · simp only [h, if_true, if_false, OTState.writeElement, OTState.writeWord_words,
        ite_true, ite_false]
      rw [if_neg hslot]
      exact hout

/-- Full characterization of `ObjectTable::grow_table` when the block after
the table end carries an object header: the table keeps its base, grows by
the block size, relocates the block to the fresh allocation, updates the
relocated id's slot, conditionally extends the remembered set, threads the
vacated words as free-stack entries ending in the old (empty) free stack,
and advances the heap base to the new table end. -/
theorem OTState.growTable_spec (s : OTState)
    (h0 : s.free = NULL_OBJECT_ID) (hb : 0 < s.base)
    (htag : hasObjectHeader (s.words s.tableEnd) = true)
    (hsz : 0 < s.blockSize s.tableEnd)
    (hoid : unskew (s.blockObjectId s.tableEnd) < s.tableEnd)
    (hhp : s.tableEnd + WORD_SIZE * s.blockSize s.tableEnd ≤ s.heapPointer) :
    s.growTable.base = s.base
    ∧ s.growTable.length = s.length + s.blockSize s.tableEnd
    ∧ s.growTable.heapBase = s.base + WORD_SIZE * (s.length + s.blockSize s.tableEnd)
    ∧ s.growTable.heapPointer = s.heapPointer + WORD_SIZE * s.blockSize s.tableEnd
    ∧ s.growTable.free = skew (s.base + WORD_SIZE * s.length)
    ∧ (∀ k, k < s.blockSize s.tableEnd →
        s.growTable.words (s.heapPointer + WORD_SIZE * k) =
          s.words (s.tableEnd + WORD_SIZE * k))
    ∧ s.growTable.words (unskew (s.blockObjectId s.tableEnd)) = s.heapPointer
    ∧ s.growTable.remembered =
        (if s.tableEnd < s.lastHeapPointer then
          s.blockObjectId s.tableEnd :: s.remembered
        else s.remembered)
    ∧ (∀ j, j + 1 < s.blockSize s.tableEnd →
        s.growTable.words (s.base + WORD_SIZE * (s.length + j)) =
          skew (s.base + WORD_SIZE * (s.length + j + 1)))
    ∧ s.growTable.words
        (s.base + WORD_SIZE * (s.length + s.blockSize s.tableEnd - 1)) =
          NULL_OBJECT_ID := by
  have hgrow : s.growTable =
      { ({ s.relocateBlock with
            length := s.relocateBlock.length + s.blockSize s.tableEnd
          } : OTState).addFreeRange s.relocateBlock.length (s.blockSize s.tableEnd) with
        heapBase :=
          (({ s.relocateBlock with
              length := s.relocateBlock.length + s.blockSize s.tableEnd
            } : OTState).addFreeRange s.relocateBlock.length
              (s.blockSize s.tableEnd)).tableEnd } := by
    simp only [OTState.growTable, htag, if_true]
  have hrb : s.relocateBlock.base = s.base := s.relocateBlock_base
  have hrl : s.relocateBlock.length = s.length := s.relocateBlock_length
  have hrf : s.relocateBlock.free = s.free := s.relocateBlock_free
  have hrp : s.relocateBlock.heapPointer =
      s.heapPointer + WORD_SIZE * s.blockSize s.tableEnd := s.relocateBlock_heapPointer
  set r2 : OTState :=
    { s.relocateBlock with length := s.relocateBlock.length + s.blockSize s.tableEnd }
    with hr2
  have hr2b : r2.base = s.base := hrb
  have hr2f : r2.free = NULL_OBJECT_ID := by rw [hr2]; show s.relocateBlock.free = _; rw [hrf, h0]
  have hr2w : r2.words = s.relocateBlock.words := rfl
  have hbpos : 0 < r2.base := by rw [hr2b]; exact hb
  refine ⟨?_, ?_, ?_, ?_, ?_, ?_, ?_, ?_, ?_, ?_⟩
  · rw [hgrow]
    show (r2.addFreeRange s.relocateBlock.length (s.blockSize s.tableEnd)).base = s.base
    rw [OTState.addFreeRange_base, hr2b]
  · rw [hgrow]
    show (r2.addFreeRange s.relocateBlock.length (s.blockSize s.tableEnd)).length = _
    rw [OTState.addFreeRange_length]
    show s.relocateBlock.length + s.blockSize s.tableEnd = _
    rw [hrl]
  · rw [hgrow]
    show (r2.addFreeRange s.relocateBlock.length (s.blockSize s.tableEnd)).tableEnd = _
    show (r2.addFreeRange s.relocateBlock.length (s.blockSize s.tableEnd)).base +
        WORD_SIZE * (r2.addFreeRange s.relocateBlock.length (s.blockSize s.tableEnd)).length = _
    rw [OTState.addFreeRange_base, OTState.addFreeRange_length, hr2b]
    show s.base + WORD_SIZE * (s.relocateBlock.length + s.blockSize s.tableEnd) = _
    rw [hrl]
  · rw [hgrow]
    show (r2.addFreeRange s.relocateBlock.length (s.blockSize s.tableEnd)).heapPointer = _
    rw [OTState.addFreeRange_heapPointer]
    show s.relocateBlock.heapPointer = _
    rw [hrp]
  · rw [hgrow]
    show (r2.addFreeRange s.relocateBlock.length (s.blockSize s.tableEnd)).free = _
    rw [OTState.addFreeRange_free r2 _ _ hsz, hr2b, hrl]
  · intro k hk
    rw [hgrow]
    show (r2.addFreeRange s.relocateBlock.length (s.blockSize s.tableEnd)).words _ = _
    rw [OTState.addFreeRange_words_out r2 _ _ hbpos _ (fun j hj => by
      rw [hr2b, hrl]
      have hE : s.tableEnd = s.base + WORD_SIZE * s.length := rfl
      simp only [WORD_SIZE] at *
      omega)]
    rw [hr2w]
    exact s.relocateBlock_words_copy hhp hoid k hk
  · rw [hgrow]
    show (r2.addFreeRange s.relocateBlock.length (s.blockSize s.tableEnd)).words _ = _
    rw [OTState.addFreeRange_words_out r2 _ _ hbpos _ (fun j hj => by
      rw [hr2b, hrl]
      have hE : s.tableEnd = s.base + WORD_SIZE * s.length := rfl
      simp only [WORD_SIZE] at *
      omega)]
    rw [hr2w]
    exact s.relocateBlock_words_slot
  · rw [hgrow]
    show (r2.addFreeRange s.relocateBlock.length (s.blockSize s.tableEnd)).remembered = _
    rw [OTState.addFreeRange_remembered]
    show s.relocateBlock.remembered = _
    exact s.relocateBlock_remembered
  · intro j hj
    rw [hgrow]
    show (r2.addFreeRange s.relocateBlock.length (s.blockSize s.tableEnd)).words _ = _
    rw [hrl]
    have := OTState.addFreeRange_words_in r2 s.length hbpos
      (s.blockSize s.tableEnd) j hj
    rw [hr2b] at this
    exact this
  · rw [hgrow]
    show (r2.addFreeRange s.relocateBlock.length (s.blockSize s.tableEnd)).words _ = _
    rw [hrl]
    have := OTState.addFreeRange_words_last r2 s.length hbpos
      (s.blockSize s.tableEnd) hsz
    rw [hr2b, hr2f] at this
    exact this

/-! ### Claim C7 -/

/-- C7: when `new_object_id` runs with an empty free stack, the table grows
in place: the block after the table is relocated to a fresh allocation at
the top of the heap (its bytes copied, its table slot updated via
`move_object`), its id is inserted into the young remembered set exactly
when its old address was below `last_heap_pointer`, the vacated words become
new free-stack entries (threaded in ascending slot order, ending in the old
empty stack), the heap base advances to the new table end, and the table
base never changes. -/
theorem objectTable_growth (s : OTState) (addr : Nat)
    (h0 : s.free = NULL_OBJECT_ID) (hb : 0 < s.base) (hlen : 0 < s.length)
    (htag : hasObjectHeader (s.words s.tableEnd) = true)
    (hsz : 0 < s.blockSize s.tableEnd)
    (hoid : unskew (s.blockObjectId s.tableEnd) < s.tableEnd)
    (hhp : s.tableEnd + WORD_SIZE * s.blockSize s.tableEnd ≤ s.heapPointer) :
    (s.newObjectId addr).1 = skew (s.base + WORD_SIZE * s.length)
    ∧ (s.newObjectId addr).2.base = s.base
    ∧ (s.newObjectId addr).2.length = s.length + s.blockSize s.tableEnd
    ∧ (s.newObjectId addr).2.heapBase =
        s.base + WORD_SIZE * (s.length + s.blockSize s.tableEnd)
    ∧ (s.newObjectId addr).2.heapPointer =
        s.heapPointer + WORD_SIZE * s.blockSize s.tableEnd
    ∧ (∀ k, k < s.blockSize s.tableEnd →
        (s.newObjectId addr).2.words (s.heapPointer + WORD_SIZE * k) =
          s.words (s.tableEnd + WORD_SIZE * k))
    ∧ (s.newObjectId addr).2.getObjectAddress (s.blockObjectId s.tableEnd) =
        s.heapPointer
    ∧ (s.newObjectId addr).2.remembered =
        (if s.tableEnd < s.lastHeapPointer then
          s.blockObjectId s.tableEnd :: s.remembered
        else s.remembered)
    ∧ (s.newObjectId addr).2.getObjectAddress (s.newObjectId addr).1 = addr
    ∧ (s.newObjectId addr).2.free =
        (if s.blockSize s.tableEnd = 1 then NULL_OBJECT_ID
         else skew (s.base + WORD_SIZE * (s.length + 1)))
    ∧ (∀ j, 0 < j → j + 1 < s.blockSize s.tableEnd →
        (s.newObjectId addr).2.words (s.base + WORD_SIZE * (s.length + j)) =
          skew (s.base + WORD_SIZE * (s.length + j + 1)))
    ∧ (1 < s.blockSize s.tableEnd →
        (s.newObjectId addr).2.words
          (s.base + WORD_SIZE * (s.length + s.blockSize s.tableEnd - 1)) =
            NULL_OBJECT_ID) := by
  obtain ⟨g1, g2, g3, g4, g5, g6, g7, g8, g9, g10⟩ :=
    s.growTable_spec h0 hb htag hsz hoid hhp
  have hE : s.tableEnd = s.base + WORD_SIZE * s.length := rfl
  have hpair : s.newObjectId addr =
      (s.growTable.free,
        ({ s.growTable with
            free := s.growTable.readElement s.growTable.free } : OTState).writeElement
          s.growTable.free addr) := by
    simp only [OTState.newObjectId, OTState.popFreeId, h0, if_pos]
  have hunskew : unskew s.growTable.free = s.base + WORD_SIZE * s.length := by
    rw [g5]
    simp only [unskew, skew, WORD_SIZE] at *
    omega
  have hread : s.growTable.readElement s.growTable.free =
      (if s.blockSize s.tableEnd = 1 then NULL_OBJECT_ID
       else skew (s.base + WORD_SIZE * (s.length + 1))) := by
    show s.growTable.words (unskew s.growTable.free) = _
    rw [hunskew]
    by_cases h1 : s.blockSize s.tableEnd = 1
    · rw [if_pos h1]
      have := g10
      rw [h1] at this
      exact this
    · rw [if_neg h1]
      exact g9 0 (by omega)
  have hwords : ∀ x, (s.newObjectId addr).2.words x =
      (if x = s.base + WORD_SIZE * s.length then addr else s.growTable.words x) := by
    intro x
    rw [hpair]
    show (if x = unskew s.growTable.free then addr else s.growTable.words x) = _
    rw [hunskew]
  refine ⟨?_, ?_, ?_, ?_, ?_, ?_, ?_, ?_, ?_, ?_, ?_, ?_⟩
  · rw [hpair]
    exact g5
  · rw [hpair]
    exact g1
  · rw [hpair]
    exact g2
  · rw [hpair]
    exact g3
  · rw [hpair]
    exact g4
  · intro k hk
    rw [hwords]
    rw [if_neg (by simp only [WORD_SIZE] at *; omega)]
    exact g6 k hk
  · show (s.newObjectId addr).2.words (unskew (s.blockObjectId s.tableEnd)) = _
    rw [hwords]
    rw [if_neg (by simp only [WORD_SIZE] at *; omega)]
    exact g7
  · rw [hpair]
    exact g8
  · show (s.newObjectId addr).2.words (unskew (s.newObjectId addr).1) = _
    have h1 : (s.newObjectId addr).1 = s.growTable.free := by rw [hpair]
    rw [h1, hunskew, hwords, if_pos rfl]
  · rw [hpair]
    show s.growTable.readElement s.growTable.free = _
    exact hread
  · intro j hj0 hj1
    rw [hwords]
    rw [if_neg (by simp only [WORD_SIZE] at *; omega)]
    exact g9 j hj1
  · intro h2
    rw [hwords]
    rw [if_neg (by simp only [WORD_SIZE] at *; omega)]
    exact g10

/-- Closed instantiation of the table-growth theorem on the concrete state
`otGrowWitnessState` (one-slot table at base 4 followed by a 3-word object
with id 3 below the last heap pointer). -/
theorem objectTable_growth_witness :
    (otGrowWitnessState.newObjectId 60).1 =
      skew (otGrowWitnessState.base + WORD_SIZE * otGrowWitnessState.length)
    ∧ (otGrowWitnessState.newObjectId 60).2.base = otGrowWitnessState.base
    ∧ (otGrowWitnessState.newObjectId 60).2.length =
        otGrowWitnessState.length +
          otGrowWitnessState.blockSize otGrowWitnessState.tableEnd
    ∧ (otGrowWitnessState.newObjectId 60).2.getObjectAddress
        (otGrowWitnessState.newObjectId 60).1 = 60
    ∧ (otGrowWitnessState.newObjectId 60).2.words
        (otGrowWitnessState.heapPointer + WORD_SIZE * 0) =
          otGrowWitnessState.words (otGrowWitnessState.tableEnd + WORD_SIZE * 0)
    ∧ (otGrowWitnessState.newObjectId 60).2.getObjectAddress
        (otGrowWitnessState.blockObjectId otGrowWitnessState.tableEnd) =
          otGrowWitnessState.heapPointer := by
  obtain ⟨h1, h2, h3, h4, h5, h6, h7, h8, h9, h10, h11, h12⟩ :=
    objectTable_growth otGrowWitnessState 60 (by decide) (by decide) (by decide)
      (by decide) (by decide) (by decide) (by decide)
  exact ⟨h1, h2, h3, h9, h6 0 (by decide), h7⟩

/-! ### Claims C8 and C10 -/

/-- C8: for every object id, `get_object_address(id)` returns the address
most recently associated with `id` by `new_object_id` or `move_object`;
after `move_object(id, A + 3·word)` on an id previously mapped to `A`,
`get_object_address(id)` returns `A + 3·word`; and the result is unchanged
by `move_object`, `free_object_id` and (non-growing) `new_object_id`
operations on other ids. -/
theorem objectTable_address_tracking (s : OTState) (id id2 A addr : Nat)
    (hne : id ≠ id2) (hfree : s.free ≠ NULL_OBJECT_ID) (hfid : s.free ≠ id)
    (hA : s.getObjectAddress id = A) :
    (s.moveObject id (A + 3 * WORD_SIZE)).getObjectAddress id = A + 3 * WORD_SIZE
    ∧ (s.moveObject id2 addr).getObjectAddress id = s.getObjectAddress id
    ∧ (s.freeObjectId id2).getObjectAddress id = s.getObjectAddress id
    ∧ (s.newObjectId addr).2.getObjectAddress (s.newObjectId addr).1 = addr
    ∧ (s.newObjectId addr).2.getObjectAddress id = s.getObjectAddress id := by
  subst hA
  have h21 : id + 1 ≠ id2 + 1 := by omega
  have hf1 : id + 1 ≠ s.free + 1 := by omega
  refine ⟨?_, ?_, ?_, ?_, ?_⟩
  · simp [OTState.moveObject, OTState.getObjectAddress, OTState.writeElement,
      OTState.readElement, OTState.writeWord, unskew]
  · simp [OTState.moveObject, OTState.getObjectAddress, OTState.writeElement,
      OTState.readElement, OTState.writeWord, unskew, h21]
  · simp [OTState.freeObjectId, OTState.pushFreeId, OTState.getObjectAddress,
      OTState.writeElement, OTState.readElement, OTState.writeWord, unskew, h21]
  · simp [OTState.newObjectId, OTState.popFreeId, OTState.getObjectAddress,
      OTState.writeElement, OTState.readElement, OTState.writeWord, unskew, hfree]
  · simp [OTState.newObjectId, OTState.popFreeId, OTState.getObjectAddress,
      OTState.writeElement, OTState.readElement, OTState.writeWord, unskew, hfree, hf1]

theorem objectTable_address_tracking_witness :
    (otWitnessState.moveObject 7 (0 + 3 * WORD_SIZE)).getObjectAddress 7 = 0 + 3 * WORD_SIZE
    ∧ (otWitnessState.moveObject 11 40).getObjectAddress 7 = otWitnessState.getObjectAddress 7
    ∧ (otWitnessState.freeObjectId 11).getObjectAddress 7 = otWitnessState.getObjectAddress 7
    ∧ (otWitnessState.newObjectId 40).2.getObjectAddress (otWitnessState.newObjectId 40).1 = 40
    ∧ (otWitnessState.newObjectId 40).2.getObjectAddress 7 = otWitnessState.getObjectAddress 7 :=
  objectTable_address_tracking otWitnessState 7 11 0 40 (by decide) (by decide)
    (by decide) (by decide)

/-- C10: free object ids are reused in LIFO order: `free_object_id(id)`
pushes `id` on top of the free stack, and an immediately following
`new_object_id` pops that top and returns exactly `id`, associating it with
the new address. -/
theorem objectTable_free_realloc_lifo (s : OTState) (id addr : Nat)
    (h : id ≠ NULL_OBJECT_ID) :
    (s.freeObjectId id).free = id
    ∧ ((s.freeObjectId id).newObjectId addr).1 = id
    ∧ ((s.freeObjectId id).newObjectId addr).2.getObjectAddress id = addr := by
  refine ⟨rfl, ?_, ?_⟩
  · simp [OTState.freeObjectId, OTState.pushFreeId, OTState.newObjectId,
      OTState.popFreeId, OTState.writeElement, OTState.writeWord, unskew, h]
  · simp [OTState.freeObjectId, OTState.pushFreeId, OTState.newObjectId,
      OTState.popFreeId, OTState.getObjectAddress, OTState.writeElement,
      OTState.readElement, OTState.writeWord, unskew, h]

theorem objectTable_free_realloc_lifo_witness :
    (otWitnessState.freeObjectId 7).free = 7
    ∧ ((otWitnessState.freeObjectId 7).newObjectId 40).1 = 7
    ∧ ((otWitnessState.freeObjectId 7).newObjectId 40).2.getObjectAddress 7 = 40 :=
  objectTable_free_realloc_lifo otWitnessState 7 40 (by decide)

/-! ### Lemmas about the mark increment -/

theorem MarkM.markObject_complete (m : MarkM) (v : MVal) :
    (m.markObject v).complete = m.complete := by
  simp only [MarkM.markObject]
  cases v with
  | scalar n => rfl
  | ptr a => dsimp only; split <;> rfl

theorem MarkM.markObject_steps (m : MarkM) (v : MVal) :
    (m.markObject v).time.steps = m.time.steps + 1 := by
  simp only [MarkM.markObject]
  cases v with
  | scalar n => rfl
  | ptr a => dsimp only; split <;> rfl

theorem MarkM.markObject_limit (m : MarkM) (v : MVal) :
    (m.markObject v).time.limit = m.time.limit := by
  simp only [MarkM.markObject]
  cases v with
  | scalar n => rfl
  | ptr a => dsimp only; split <;> rfl

theorem MarkM.visitFields_cons (m : MarkM) (v : MVal) (vs : List MVal) :
    m.visitFields (v :: vs) =
      (if pointsToOrBeyond m.heap.base v then m.markObject v else m).visitFields vs := rfl

theorem MarkM.visitFields_complete (vs : List MVal) :
    ∀ m : MarkM, (m.visitFields vs).complete = m.complete := by
  induction vs with
  | nil => intro m; rfl
  | cons v vs ih =>
    intro m
    rw [MarkM.visitFields_cons, ih]
    split
    · exact MarkM.markObject_complete m v
    · rfl

theorem MarkM.visitFields_limit (vs : List MVal) :
    ∀ m : MarkM, (m.visitFields vs).time.limit = m.time.limit := by
  induction vs with
  | nil => intro m; rfl
  | cons v vs ih =>
    intro m
    rw [MarkM.visitFields_cons, ih]
    split
    · exact MarkM.markObject_limit m v
    · rfl

theorem MarkM.visitFields_steps_mono (vs : List MVal) :
    ∀ m : MarkM, m.time.steps ≤ (m.visitFields vs).time.steps := by
  induction vs with
  | nil => intro m; exact Nat.le_refl _
  | cons v vs ih =>
    intro m
    rw [MarkM.visitFields_cons]
    refine Nat.le_trans ?_ (ih _)
    split
    · rw [MarkM.markObject_steps]
      exact Nat.le_succ _
    · exact Nat.le_refl _

theorem MarkM.markFields_complete (m : MarkM) (a : Nat) :
    (m.markFields a).complete = m.complete := by
  simp only [MarkM.markFields]
  split
  · rw [MarkM.visitFields_complete]
    split <;> rfl
  · rw [MarkM.visitFields_complete]

theorem MarkM.markFields_limit (m : MarkM) (a : Nat) :
    (m.markFields a).time.limit = m.time.limit := by
  simp only [MarkM.markFields]
  split
  · rw [MarkM.visitFields_limit]
    split <;> rfl
  · rw [MarkM.visitFields_limit]

theorem MarkM.markFields_steps_mono (m : MarkM) (a : Nat) :
    m.time.steps ≤ (m.markFields a).time.steps := by
  simp only [MarkM.markFields]
  split
  · refine Nat.le_trans ?_ (MarkM.visitFields_steps_mono _ _)
    split <;> exact Nat.le_add_right _ _
  · exact MarkM.visitFields_steps_mono _ _

/-- The pop loop of the mark increment stops early only because the time
budget is exhausted: the `is_over` check sits at the loop head, after a
whole object has been processed. -/
theorem MarkM.runLoop_stops_only_on_budget :
    ∀ fuel (m : MarkM), m.time.limit + 2 ≤ fuel + m.time.steps →
      (MarkM.runLoop fuel m).complete = true
      ∨ (MarkM.runLoop fuel m).time.isOver = true := by
  intro fuel
  induction fuel with
  | zero =>
    intro m h
    right
    simp only [MarkM.runLoop, BoundedTime.isOver, decide_eq_true_eq]
    omega
  | succ fuel ih =>
    intro m h
    rw [MarkM.runLoop]
    cases hst : m.stack with
    | nil => left; rfl
    | cons a rest =>
      dsimp only
      by_cases hover :
        (MarkM.markFields { m with stack := rest } a).time.tick.isOver = true
      · rw [if_pos hover]
        right
        exact hover
      · rw [if_neg hover]
        apply ih
        have h1 := MarkM.markFields_steps_mono { m with stack := rest } a
        have h2 := MarkM.markFields_limit { m with stack := rest } a
        simp only [BoundedTime.tick] at *
        omega

/-- The pop loop establishes `complete` only when the mark stack has
emptied. -/
theorem MarkM.runLoop_complete_imp_empty :
    ∀ fuel (m : MarkM), m.complete = false →
      ((MarkM.runLoop fuel m).complete = true → (MarkM.runLoop fuel m).stack = []) := by
  intro fuel
  induction fuel with
  | zero =>
    intro m hm hc
    rw [MarkM.runLoop] at hc
    rw [hm] at hc
    exact absurd hc (by simp)
  | succ fuel ih =>
    intro m hm
    rw [MarkM.runLoop]
    cases hst : m.stack with
    | nil =>
      intro _
      show ({ m with complete := true } : MarkM).stack = []
      exact hst
    | cons a rest =>
      dsimp only
      have hcomp : (MarkM.markFields { m with stack := rest } a).complete = false := by
        rw [MarkM.markFields_complete]
        exact hm
      by_cases hover :
        (MarkM.markFields { m with stack := rest } a).time.tick.isOver = true
      · rw [if_pos hover]
        intro hc
        exact absurd hc (by simp [hcomp])
      · rw [if_neg hover]
        exact ih _ hcomp

/-- `MarkIncrement::run` preserves the invariant that a complete mark state
has an empty mark stack. -/
theorem MarkM.run_complete_imp_empty (m : MarkM)
    (hm : m.complete = true → m.stack = []) :
    (MarkM.run m).complete = true → (MarkM.run m).stack = [] := by
  unfold MarkM.run
  by_cases hc : m.complete = true
  · rw [if_pos hc]
    intro _
    exact hm hc
  · rw [if_neg hc]
    exact MarkM.runLoop_complete_imp_empty _ m (by simpa using hc)

/-- `MarkIncrement::run` on an incomplete state that remains incomplete has
exhausted its budget: increments are never preempted mid-object. -/
theorem MarkM.run_incomplete_means_over (m : MarkM) (hm : m.complete = false)
    (hr : (MarkM.run m).complete = false) : (MarkM.run m).time.isOver = true := by
  unfold MarkM.run at *
  rw [if_neg (by simp [hm])] at *
  rcases MarkM.runLoop_stops_only_on_budget (m.time.limit + 2) m (by omega) with h | h
  · rw [h] at hr
    exact absurd hr (by simp)
  · exact h

/-! ### Claims C5 and C6 -/

/-- C5 (amended): the step limits are `1_000_000` (empty-call-stack
increment) and `50_000` (allocation piggyback); `tick`/`advance` add to the
synthetic counter and `is_over` is `steps > limit`; each visited object
ticks exactly once in `mark_object`; in `mark_increment.rs` the array-slice
advance equals the number of elements actually scanned in the slice; in
`mark_phase.rs` the slice closure adds `SLICE_INCREMENT` steps for a full
slice and `len % SLICE_INCREMENT` steps for the final slice — this equals
the number of scanned elements except when the final slice consists of
exactly `SLICE_INCREMENT = 128` elements, where it adds `0`; the budget is
checked only at loop heads, so an increment that stops while marking is
incomplete has exhausted its budget after a whole object. -/
theorem mark_increment_step_accounting :
    LONG_INCREMENT_TIME_LIMIT = 1000000
    ∧ SHORT_INCREMENT_TIME_LIMIT = 50000
    ∧ BoundedTime.longInterval = { steps := 0, limit := 1000000 }
    ∧ BoundedTime.shortInterval = { steps := 0, limit := 50000 }
    ∧ (∀ t : BoundedTime, t.tick = { steps := t.steps + 1, limit := t.limit })
    ∧ (∀ (t : BoundedTime) (k : Nat), t.advance k = { steps := t.steps + k, limit := t.limit })
    ∧ (∀ t : BoundedTime, t.isOver = decide (t.steps > t.limit))
    ∧ (∀ (m : MarkM) (v : MVal), (m.markObject v).time.steps = m.time.steps + 1)
    ∧ (∀ tag len (fields : List MVal),
        fields.length = len → (if TAG_ARRAY_SLICE_MIN ≤ tag then tag else 0) ≤ len →
        ((fields.drop (slice_array tag len).1).take
            ((slice_array tag len).2.1 - (slice_array tag len).1)).length =
          (slice_array tag len).2.1 - (slice_array tag len).1)
    ∧ (∀ len s, s % SLICE_INCREMENT = 0 → s ≤ len →
        (markPhaseSliceVisit len s).stepsAdded =
          if SLICE_INCREMENT < len - s then SLICE_INCREMENT else len % SLICE_INCREMENT)
    ∧ (∀ len s, s % SLICE_INCREMENT = 0 → s ≤ len → len - s ≠ SLICE_INCREMENT →
        (markPhaseSliceVisit len s).stepsAdded = sliceElementsScanned len s)
    ∧ (∀ len s, s % SLICE_INCREMENT = 0 → s + SLICE_INCREMENT = len →
        (markPhaseSliceVisit len s).stepsAdded = 0
        ∧ sliceElementsScanned len s = SLICE_INCREMENT)
    ∧ (∀ m : MarkM, m.complete = false → (MarkM.run m).complete = false →
        (MarkM.run m).time.isOver = true) := by
  refine ⟨rfl, rfl, rfl, rfl, fun t => rfl, fun t k => rfl, fun t => rfl,
    MarkM.markObject_steps, ?_, ?_, ?_, ?_, MarkM.run_incomplete_means_over⟩
  · intro tag len fields hlen hstart
    simp only [slice_array, List.length_take, List.length_drop, hlen]
    split <;> split <;> simp only [SLICE_INCREMENT] at * <;> omega
  · intro len s h0 hs
    simp only [markPhaseSliceVisit]
    split <;> rfl
  · intro len s h0 hs hne
    simp only [markPhaseSliceVisit, sliceElementsScanned]
    split <;> simp only [SLICE_INCREMENT] at * <;> omega
  · intro len s h0 hlen
    simp only [markPhaseSliceVisit, sliceElementsScanned]
    split <;> simp only [SLICE_INCREMENT] at * <;> constructor <;> omega

/-- Counterexample to C5 as stated: for an array of length 128 popped with
slice start 0, the final slice scans 128 elements but `mark_phase.rs` adds
`128 % 128 = 0` steps, not one tick per scanned element. -/
theorem mark_increment_step_accounting_cex :
    (markPhaseSliceVisit 128 0).stepsAdded = 0
    ∧ sliceElementsScanned 128 0 = 128
    ∧ (0 : Nat) ≠ 128 := by decide

/-- Closed instantiation of the step-accounting theorem: a full slice of an
array of length 300 adds 128 steps for 128 scanned elements, and a final
slice of 44 elements (len 300, start 256) adds 44 = 300 % 128 steps. -/
theorem mark_increment_step_accounting_witness :
    (markPhaseSliceVisit 300 0).stepsAdded = sliceElementsScanned 300 0
    ∧ (markPhaseSliceVisit 300 256).stepsAdded = sliceElementsScanned 300 256
    ∧ (markPhaseSliceVisit 300 256).stepsAdded = 44 := by
  obtain ⟨-, -, -, -, -, -, -, -, -, -, heq, -, -⟩ := mark_increment_step_accounting
  exact ⟨heq 300 0 (by decide) (by decide) (by decide),
    heq 300 256 (by decide) (by decide) (by decide), by decide⟩

/-- C6 (amended): when a popped array has more than `SLICE_INCREMENT = 128`
unscanned elements remaining, its header tag is overwritten with the marked
`next_start` value itself (which lies in the slice-tag range because
`next_start ≥ SLICE_INCREMENT ≥ TAG_ARRAY_SLICE_MIN`), the array is
re-pushed on the mark stack and exactly 128 elements are scanned in the
slice; a final slice restores the tag to `TAG_ARRAY` and at most 128
elements are scanned. -/
theorem mark_array_slicing (len s : Nat) (hs : s ≤ len) :
    (SLICE_INCREMENT < len - s →
      (markPhaseSliceVisit len s).newRawTag = markTag (s + SLICE_INCREMENT)
      ∧ TAG_ARRAY_SLICE_MIN ≤ s + SLICE_INCREMENT
      ∧ (markPhaseSliceVisit len s).repushed = true
      ∧ sliceElementsScanned len s = SLICE_INCREMENT)
    ∧ (len - s ≤ SLICE_INCREMENT →
      (markPhaseSliceVisit len s).newRawTag = markTag TAG_ARRAY
      ∧ (markPhaseSliceVisit len s).repushed = false
      ∧ sliceElementsScanned len s = len - s)
    ∧ sliceElementsScanned len s ≤ SLICE_INCREMENT
    ∧ SLICE_INCREMENT = 128 := by
  refine ⟨?_, ?_, ?_, rfl⟩
  · intro h
    refine ⟨?_, ?_, ?_, ?_⟩
    · simp only [markPhaseSliceVisit]
      rw [if_pos (by simp only [SLICE_INCREMENT] at *; omega)]
    · simp only [SLICE_INCREMENT, TAG_ARRAY_SLICE_MIN]
      omega
    · simp only [markPhaseSliceVisit]
      rw [if_pos (by simp only [SLICE_INCREMENT] at *; omega)]
    · simp only [markPhaseSliceVisit, sliceElementsScanned]
      rw [if_pos (by simp only [SLICE_INCREMENT] at *; omega)]
      simp only [SLICE_INCREMENT]
      omega
  · intro h
    refine ⟨?_, ?_, ?_⟩
    · simp only [markPhaseSliceVisit]
      rw [if_neg (by simp only [SLICE_INCREMENT] at *; omega)]
    · simp only [markPhaseSliceVisit]
      rw [if_neg (by simp only [SLICE_INCREMENT] at *; omega)]
    · simp only [markPhaseSliceVisit, sliceElementsScanned]
      rw [if_neg (by simp only [SLICE_INCREMENT] at *; omega)]
  · simp only [markPhaseSliceVisit, sliceElementsScanned]
    split <;> simp only [SLICE_INCREMENT] at * <;> omega

/-- Counterexample to C6 as stated: popping an array of length 300 at slice
start 0 writes the marked tag `next_start = 128` into the header, which is
not `TAG_ARRAY_SLICE_MIN + next_start`. -/
theorem mark_array_slicing_cex :
    (markPhaseSliceVisit 300 0).newRawTag = markTag 128
    ∧ markTag 128 ≠ markTag (TAG_ARRAY_SLICE_MIN + 128) := by decide

/-- Closed instantiation of the slicing theorem at length 300, start 0. -/
theorem mark_array_slicing_witness :
    (markPhaseSliceVisit 300 0).newRawTag = markTag (0 + SLICE_INCREMENT)
    ∧ (markPhaseSliceVisit 300 0).repushed = true
    ∧ sliceElementsScanned 300 0 = SLICE_INCREMENT
    ∧ (markPhaseSliceVisit 300 256).newRawTag = markTag TAG_ARRAY := by
  obtain ⟨h1, h2, -, -⟩ := mark_array_slicing 300 0 (by decide)
  obtain ⟨g1, g2, g3, g4⟩ := h1 (by decide)
  obtain ⟨-, j1, -⟩ := mark_array_slicing 300 256 (by decide)
  exact ⟨g1, g3, g4, (j1 (by decide)).1⟩

/-! ### Lemmas about the word-level evacuation model -/

theorem EvMem.writeWord_get (m : EvMem) (a v x : Nat) :
    (m.writeWord a v).words x = if x = a then v else m.words x := rfl

theorem EvMem.memcpyWords_hp (m : EvMem) (toAddr fromAddr : Nat) :
    ∀ n, (m.memcpyWords toAddr fromAddr n).hp = m.hp := by
  intro n; induction n with
  | zero => rfl
  | succ n ih => simp [EvMem.memcpyWords, EvMem.writeWord, ih]

theorem EvMem.memcpyWords_out (m : EvMem) (toAddr fromAddr x : Nat) :
    ∀ n, (∀ k, k < n → x ≠ toAddr + WORD_SIZE * k) →
      (m.memcpyWords toAddr fromAddr n).words x = m.words x := by
  intro n
  induction n with
  | zero => intro _; rfl
  | succ n ih =>
    intro hx
    rw [EvMem.memcpyWords]
    simp only [EvMem.writeWord_get]
    rw [if_neg (hx n (by omega))]
    exact ih (fun k hk => hx k (by omega))

theorem EvMem.memcpyWords_in (m : EvMem) (toAddr fromAddr : Nat) :
    ∀ n, fromAddr + WORD_SIZE * n ≤ toAddr →
      ∀ k, k < n →
        (m.memcpyWords toAddr fromAddr n).words (toAddr + WORD_SIZE * k) =
          m.words (fromAddr + WORD_SIZE * k) := by
  intro n
  induction n with
  | zero => omega
  | succ n ih =>
    intro hdisj k hk
    rw [EvMem.memcpyWords]
    simp only [EvMem.writeWord_get]
    rcases Nat.lt_or_ge k n with hlt | hge
    · rw [if_neg (by simp only [WORD_SIZE] at *; omega)]
      exact ih (by simp only [WORD_SIZE] at *; omega) k hlt
    · have hkn : k = n := by omega
      subst hkn
      rw [if_pos rfl]
      rw [EvMem.memcpyWords_out m toAddr fromAddr _ k
        (fun k' hk' => by simp only [WORD_SIZE] at *; omega)]

theorem EvMem.evacuateObject_hp (m : EvMem) (a : Nat) :
    (m.evacuateObject a).hp = m.hp + WORD_SIZE * m.blockSize a := by
  simp [EvMem.evacuateObject, EvMem.writeWord, EvMem.memcpyWords_hp]

/-- Frame property of `evacuate_object`: only the copy region and the
original's forward slot change. -/
theorem EvMem.evacuateObject_words_out (m : EvMem) (a x : Nat)
    (hx : x < m.hp) (hxf : x ≠ a + WORD_SIZE) :
    (m.evacuateObject a).words x = m.words x := by
  have hne2 : ¬ (x = m.hp + WORD_SIZE) := by
    simp only [WORD_SIZE] at *
    omega
  simp only [EvMem.evacuateObject]
  simp only [EvMem.writeWord_get]
  rw [if_neg hxf, if_neg hne2]
  exact EvMem.memcpyWords_out _ _ _ _ _
    (fun k hk => by simp only [WORD_SIZE] at *; omega)

/-- Copy property of `evacuate_object`: all words of the block except the
forward slot are copied verbatim to the fresh allocation. -/
theorem EvMem.evacuateObject_words_copy (m : EvMem) (a : Nat)
    (hsz : 3 ≤ m.blockSize a)
    (hdisj : a + WORD_SIZE * m.blockSize a ≤ m.hp) :
    ∀ k, k < m.blockSize a → k ≠ 1 →
      (m.evacuateObject a).words (m.hp + WORD_SIZE * k) =
        m.words (a + WORD_SIZE * k) := by
  intro k hk hk1
  have hne1 : ¬ (m.hp + WORD_SIZE * k = a + WORD_SIZE) := by
    simp only [WORD_SIZE] at *
    omega
  have hne2 : ¬ (m.hp + WORD_SIZE * k = m.hp + WORD_SIZE) := by
    simp only [WORD_SIZE] at *
    omega
  simp only [EvMem.evacuateObject]
  simp only [EvMem.writeWord_get]
  rw [if_neg hne1, if_neg hne2]
  exact EvMem.memcpyWords_in _ _ _ _ hdisj k hk

/-- Forward slots after `evacuate_object`: both the original and the copy
forward to the copy's value. -/
theorem EvMem.evacuateObject_forwards (m : EvMem) (a : Nat)
    (hsz : 3 ≤ m.blockSize a) (hdisj : a + WORD_SIZE * m.blockSize a ≤ m.hp) :
    (m.evacuateObject a).words (m.hp + WORD_SIZE) = skew m.hp
    ∧ (m.evacuateObject a).words (a + WORD_SIZE) = skew m.hp := by
  have hne : ¬ (m.hp + WORD_SIZE = a + WORD_SIZE) := by
    simp only [WORD_SIZE] at *
    omega
  constructor
  · simp only [EvMem.evacuateObject]
    simp only [EvMem.writeWord_get]
    simp [hne]
  · simp only [EvMem.evacuateObject]
    simp only [EvMem.writeWord_get]
    simp

/-- Lemma combining the per-object facts needed by the partition walk. -/
theorem EvMem.evacuateObject_spec (m : EvMem) (a : Nat)
    (hsz : 3 ≤ m.blockSize a) (hdisj : a + WORD_SIZE * m.blockSize a ≤ m.hp)
    (hmarked : m.isMarked a = true) (hnf : m.isForwarded a = false) :
    (m.evacuateObject a).hp = m.hp + WORD_SIZE * m.blockSize a
    ∧ (∀ k, k < m.blockSize a → k ≠ 1 →
        (m.evacuateObject a).words (m.hp + WORD_SIZE * k) = m.words (a + WORD_SIZE * k))
    ∧ (m.evacuateObject a).words (m.hp + WORD_SIZE) = skew m.hp
    ∧ (m.evacuateObject a).words (a + WORD_SIZE) = skew m.hp
    ∧ (m.evacuateObject a).isMarked m.hp = true
    ∧ (m.evacuateObject a).isForwarded a = true
    ∧ (m.evacuateObject a).isForwarded m.hp = false := by
  obtain ⟨hf1, hf2⟩ := EvMem.evacuateObject_forwards m a hsz hdisj
  refine ⟨EvMem.evacuateObject_hp m a, EvMem.evacuateObject_words_copy m a hsz hdisj,
    hf1, hf2, ?_, ?_, ?_⟩
  · have h0 := EvMem.evacuateObject_words_copy m a hsz hdisj 0 (by omega) (by omega)
    simp only [Nat.mul_zero, Nat.add_zero] at h0
    simp only [EvMem.isMarked, decide_eq_true_eq] at hmarked ⊢
    rw [h0]
    exact hmarked
  · simp only [EvMem.isForwarded, EvMem.forwardValue, decide_eq_true_eq]
    rw [hf2]
    simp only [skew, WORD_SIZE] at *
    omega
  · simp only [EvMem.isForwarded, EvMem.forwardValue, decide_eq_false_iff_not]
    rw [hf1]
    simp

theorem EvMem.evacuateObject_hp_le (m : EvMem) (a : Nat) :
    m.hp ≤ (m.evacuateObject a).hp := by
  rw [EvMem.evacuateObject_hp]
  exact Nat.le_add_right _ _

theorem EvMem.sumMarkedSizes_congr (m m' : EvMem) :
    ∀ l : List Nat,
      (∀ b ∈ l, m'.isMarked b = m.isMarked b ∧ m'.blockSize b = m.blockSize b) →
      m'.sumMarkedSizes l = m.sumMarkedSizes l := by
  intro l
  induction l with
  | nil => intro _; rfl
  | cons b l ih =>
    intro h
    obtain ⟨h1, h2⟩ := h b (List.mem_cons_self b l)
    simp only [EvMem.sumMarkedSizes, h1, h2,
      ih (fun x hx => h x (List.mem_cons_of_mem _ hx))]

/-- Full characterization of the partition walk of the evacuation increment
under a sufficient time budget: the heap pointer advances by the total size
of the marked blocks (each of which is copied by `evacuate_object`), the
time advances one tick per walked block, and every word below the original
heap pointer other than the forward slots of the marked blocks — in
particular every word of every unmarked block — is unchanged. -/
theorem EvMem.evacuatePartition_spec :
    ∀ (addrs : List Nat) (m : EvMem) (t : BoundedTime),
      m.wellFormedBlocks addrs → t.steps + addrs.length ≤ t.limit →
      (m.evacuatePartition t addrs).1.hp = m.hp + WORD_SIZE * m.sumMarkedSizes addrs
      ∧ (m.evacuatePartition t addrs).2 = ⟨t.steps + addrs.length, t.limit⟩
      ∧ (∀ x, x < m.hp → (∀ b ∈ addrs, m.isMarked b = true → x ≠ b + WORD_SIZE) →
          (m.evacuatePartition t addrs).1.words x = m.words x) := by
  intro addrs
  induction addrs with
  | nil =>
    intro m t hwf hb
    refine ⟨?_, rfl, ?_⟩
    · show m.hp = m.hp + WORD_SIZE * 0
      omega
    · intro x _ _
      rfl
  | cons a rest ih =>
    intro m t hwf hb
    have hnotover : ¬ (t.isOver = true) := by
      simp only [BoundedTime.isOver, decide_eq_true_eq]
      simp only [List.length_cons] at hb
      omega
    rw [show m.evacuatePartition t (a :: rest) =
        (if m.isMarked a then m.evacuateObject a else m).evacuatePartition t.tick rest by
      rw [EvMem.evacuatePartition]
      rw [if_neg hnotover]]
    set m1 := if m.isMarked a then m.evacuateObject a else m with hm1
    obtain ⟨hall, hpw⟩ := hwf
    obtain ⟨hsa, hba⟩ := hall a (List.mem_cons_self a rest)
    have hm1hp : m1.hp = m.hp + WORD_SIZE * (if m.isMarked a then m.blockSize a else 0) := by
      rw [hm1]
      by_cases h : m.isMarked a = true <;>
        simp [h, EvMem.evacuateObject_hp]
    have hm1ge : m.hp ≤ m1.hp := by
      rw [hm1]
      split
      · exact EvMem.evacuateObject_hp_le m a
      · exact Nat.le_refl _
    have hframe1 : ∀ x, x < m.hp →
        (m.isMarked a = true → x ≠ a + WORD_SIZE) → m1.words x = m.words x := by
      intro x hx hxa
      rw [hm1]
      split
      · next h => exact EvMem.evacuateObject_words_out m a x hx (hxa h)
      · rfl
    have hinfo : ∀ b ∈ rest, m1.isMarked b = m.isMarked b ∧ m1.blockSize b = m.blockSize b := by
      intro b hbmem
      obtain ⟨hsb, hbb⟩ := hall b (List.mem_cons_of_mem a hbmem)
      have hdisjab := (List.pairwise_cons.mp hpw).1 b hbmem
      constructor
      · unfold EvMem.isMarked
        rw [hframe1 b (by simp only [WORD_SIZE] at *; omega)
          (fun _ => by rcases hdisjab with h | h <;> simp only [WORD_SIZE] at * <;> omega)]
      · unfold EvMem.blockSize
        rw [hframe1 (b + 2 * WORD_SIZE) (by simp only [WORD_SIZE] at *; omega)
          (fun _ => by rcases hdisjab with h | h <;> simp only [WORD_SIZE] at * <;> omega)]
    have hwf1 : m1.wellFormedBlocks rest := by
      constructor
      · intro b hbmem
        obtain ⟨hsb, hbb⟩ := hall b (List.mem_cons_of_mem a hbmem)
        rw [(hinfo b hbmem).2]
        exact ⟨hsb, Nat.le_trans hbb hm1ge⟩
      · refine List.Pairwise.imp_of_mem ?_ (List.pairwise_cons.mp hpw).2
        intro x y hx hy hr
        rw [(hinfo x hx).2, (hinfo y hy).2]
        exact hr
    have hb1 : (t.tick).steps + rest.length ≤ (t.tick).limit := by
      simp only [BoundedTime.tick, List.length_cons] at *
      omega
    obtain ⟨ih1, ih2, ih3⟩ := ih m1 t.tick hwf1 hb1
    refine ⟨?_, ?_, ?_⟩
    · rw [ih1, hm1hp, EvMem.sumMarkedSizes_congr m m1 rest hinfo]
      simp only [EvMem.sumMarkedSizes]
      rw [Nat.mul_add]
      exact (Nat.add_assoc _ _ _)
    · rw [ih2]
      simp only [BoundedTime.tick, List.length_cons, BoundedTime.mk.injEq]
      exact ⟨by omega, trivial⟩
    · intro x hx hxb
      rw [ih3 x (Nat.lt_of_lt_of_le hx hm1ge)
        (fun b hbmem hbm => by
          rw [(hinfo b hbmem).1] at hbm
          exact hxb b (List.mem_cons_of_mem a hbmem) hbm)]
      exact hframe1 x hx (fun hma => hxb a (List.mem_cons_self a rest) hma)

/-! ### Claim C3 -/

/-- C3: during evacuation, every marked, not-yet-forwarded object `o` of a
to-be-evacuated partition is copied: `block_size(o)` words are allocated,
`o`'s words are copied verbatim (after which both `o.forward` and the copy's
forward hold the copy's value, and the copy is marked because the copied
header carries the mark bit); walking a partition advances the allocation
pointer by exactly the total size of its marked blocks, and unmarked blocks
are never copied — all their words are left untouched. -/
theorem evacuation_increment_behavior :
    (∀ (m : EvMem) (a : Nat), 3 ≤ m.blockSize a →
      a + WORD_SIZE * m.blockSize a ≤ m.hp →
      m.isMarked a = true → m.isForwarded a = false →
      (m.evacuateObject a).hp = m.hp + WORD_SIZE * m.blockSize a
      ∧ (∀ k, k < m.blockSize a → k ≠ 1 →
          (m.evacuateObject a).words (m.hp + WORD_SIZE * k) = m.words (a + WORD_SIZE * k))
      ∧ (m.evacuateObject a).words (m.hp + WORD_SIZE) = skew m.hp
      ∧ (m.evacuateObject a).words (a + WORD_SIZE) = skew m.hp
      ∧ (m.evacuateObject a).isMarked m.hp = true
      ∧ (m.evacuateObject a).isForwarded a = true
      ∧ (m.evacuateObject a).isForwarded m.hp = false)
    ∧ (∀ (m : EvMem) (t : BoundedTime) (addrs : List Nat),
      m.wellFormedBlocks addrs → t.steps + addrs.length ≤ t.limit →
      (m.evacuatePartition t addrs).1.hp = m.hp + WORD_SIZE * m.sumMarkedSizes addrs
      ∧ (∀ a ∈ addrs, m.isMarked a = false → ∀ k, k < m.blockSize a →
          (m.evacuatePartition t addrs).1.words (a + WORD_SIZE * k) =
            m.words (a + WORD_SIZE * k))) := by
  refine ⟨fun m a h1 h2 h3 h4 => EvMem.evacuateObject_spec m a h1 h2 h3 h4, ?_⟩
  intro m t addrs hwf hb
  obtain ⟨hp, -, hframe⟩ := EvMem.evacuatePartition_spec addrs m t hwf hb
  refine ⟨hp, ?_⟩
  intro a hmem hunm k hk
  obtain ⟨hall, hpw⟩ := hwf
  obtain ⟨hsa, hba⟩ := hall a hmem
  apply hframe
  · simp only [WORD_SIZE] at *
    omega
  · intro b hbmem hbm
    have hab : a ≠ b := by
      rintro rfl
      rw [hbm] at hunm
      cases hunm
    obtain ⟨hsb, hbb⟩ := hall b hbmem
    have hsymm : Symmetric (fun x y =>
        x + WORD_SIZE * m.blockSize x ≤ y ∨ y + WORD_SIZE * m.blockSize y ≤ x) :=
      fun x y h => h.symm
    have hrel := List.Pairwise.forall hsymm hpw hmem hbmem hab
    rcases hrel with h | h <;> simp only [WORD_SIZE] at * <;> omega

/-- Closed instantiation of the evacuation theorem on `witnessEvMem`
(a marked 3-word object at address 8, heap pointer 20). -/
theorem evacuation_increment_behavior_witness :
    (witnessEvMem.evacuateObject 8).hp =
      witnessEvMem.hp + WORD_SIZE * witnessEvMem.blockSize 8
    ∧ (witnessEvMem.evacuateObject 8).words (witnessEvMem.hp + WORD_SIZE * 0) =
        witnessEvMem.words (8 + WORD_SIZE * 0)
    ∧ (witnessEvMem.evacuateObject 8).words (witnessEvMem.hp + WORD_SIZE) =
        skew witnessEvMem.hp
    ∧ (witnessEvMem.evacuateObject 8).words (8 + WORD_SIZE) = skew witnessEvMem.hp
    ∧ (witnessEvMem.evacuateObject 8).isMarked witnessEvMem.hp = true
    ∧ (witnessEvMem.evacuatePartition ⟨0, 10⟩ [8]).1.hp =
        witnessEvMem.hp + WORD_SIZE * witnessEvMem.sumMarkedSizes [8] := by
  obtain ⟨ho, hw⟩ := evacuation_increment_behavior
  obtain ⟨h1, h2, h3, h4, h5, h6, h7⟩ :=
    ho witnessEvMem 8 (by decide) (by decide) (by decide) (by decide)
  obtain ⟨g1, g2⟩ := hw witnessEvMem ⟨0, 10⟩ [8]
    ⟨by decide, by decide⟩ (by decide)
  exact ⟨h1, h2 0 (by decide) (by decide), h3, h4, h5, g1⟩

/-! ### Claim C2 -/

/-- C2: in every run of `empty_call_stack_increment` starting in the mark
phase, the GC leaves `Mark` only when the increment ends with
`complete = true` (which, under the invariant maintained by the mark
increment, implies an empty mark stack); on that transition the state passed
to the evacuation increment is exactly the previous state with
`plan_evacuations` applied to the heap and the `Evacuate` phase installed;
while `complete` is false the phase remains `Mark` and the run performs
nothing else. -/
theorem gc_mark_to_evacuate_transition (s : GcS) (t : BoundedTime) (ms : MarkState)
    (roots : List Nat)
    (hphase : s.phase = .mark ms)
    (hinv : ms.complete = true → ms.stack = []) :
    ∃ ms' : MarkState,
      (GcS.increment s t).1.phase = GPhase.mark ms'
      ∧ (ms'.complete = true → ms'.stack = [])
      ∧ (ms'.complete = false →
          GcS.emptyCallStackIncrement roots s t = GcS.increment s t
          ∧ (GcS.emptyCallStackIncrement roots s t).1.phase = GPhase.mark ms')
      ∧ (ms'.complete = true →
          GcS.emptyCallStackIncrement roots s t =
            GcS.ecsTail1 roots
              (GcS.increment
                { (GcS.increment s t).1 with
                    heap := (GcS.increment s t).1.heap.planEvacuations,
                    phase := GPhase.evacuate ⟨0, 0⟩ }
                (GcS.increment s t).2)) := by
  obtain ⟨ph, heap, locs, ac⟩ := s
  have hph : ph = GPhase.mark ms := hphase
  subst hph
  set r := MarkM.run ⟨heap, t, ms.stack, ms.complete⟩ with hr
  have hinc : GcS.increment ⟨GPhase.mark ms, heap, locs, ac⟩ t =
      (⟨GPhase.mark ⟨r.stack, r.complete⟩, r.heap, locs, ac⟩, r.time) := rfl
  have hnotpausing : GcS.pausing ⟨GPhase.mark ms, heap, locs, ac⟩ = false := rfl
  have hecs0 : GcS.emptyCallStackIncrement roots ⟨GPhase.mark ms, heap, locs, ac⟩ t =
      GcS.ecsAfterMark roots (GcS.increment ⟨GPhase.mark ms, heap, locs, ac⟩ t) := by
    unfold GcS.emptyCallStackIncrement
    rw [hnotpausing]
    simp only [Bool.false_eq_true, if_false]
  refine ⟨⟨r.stack, r.complete⟩, ?_, ?_, ?_, ?_⟩
  · rw [hinc]
  · exact MarkM.run_complete_imp_empty ⟨heap, t, ms.stack, ms.complete⟩ hinv
  · intro hc
    have hc' : r.complete = false := hc
    have hres : GcS.emptyCallStackIncrement roots ⟨GPhase.mark ms, heap, locs, ac⟩ t =
        GcS.increment ⟨GPhase.mark ms, heap, locs, ac⟩ t := by
      rw [hecs0, hinc]
      simp only [GcS.ecsAfterMark, GcS.ecsTail1, GcS.ecsTail2, GcS.markCompleted,
        GcS.evacuationCompleted, GcS.updatingCompleted, hc', Bool.false_eq_true,
        if_false]
    refine ⟨hres, ?_⟩
    rw [hres, hinc]
  · intro hc
    have hc' : r.complete = true := hc
    rw [hecs0, hinc]
    simp only [GcS.ecsAfterMark, GcS.markCompleted, GcS.startEvacuating, hc', if_true]

/-- Closed instantiation of the transition theorem on `witnessMarkGc`
(mark phase, one marked object on the stack, small heap). -/
theorem gc_mark_to_evacuate_transition_witness :
    ∃ ms' : MarkState,
      (GcS.increment witnessMarkGc BoundedTime.longInterval).1.phase = GPhase.mark ms'
      ∧ (ms'.complete = true → ms'.stack = [])
      ∧ (ms'.complete = false →
          GcS.emptyCallStackIncrement [] witnessMarkGc BoundedTime.longInterval =
            GcS.increment witnessMarkGc BoundedTime.longInterval
          ∧ (GcS.emptyCallStackIncrement [] witnessMarkGc BoundedTime.longInterval).1.phase =
              GPhase.mark ms')
      ∧ (ms'.complete = true →
          GcS.emptyCallStackIncrement [] witnessMarkGc BoundedTime.longInterval =
            GcS.ecsTail1 []
              (GcS.increment
                { (GcS.increment witnessMarkGc BoundedTime.longInterval).1 with
                    heap := (GcS.increment witnessMarkGc
                      BoundedTime.longInterval).1.heap.planEvacuations,
                    phase := GPhase.evacuate ⟨0, 0⟩ }
                (GcS.increment witnessMarkGc BoundedTime.longInterval).2)) :=
  gc_mark_to_evacuate_transition witnessMarkGc BoundedTime.longInterval ⟨[64], false⟩ []
    rfl (by decide)

/-! ### Claim C1 -/

/-- C1 (amended): for every pointer store through the write barrier — if the
phase is `Mark` and the previously stored value is a heap pointer at or
beyond the heap base, the barrier marks that overwritten value before the
store while marking is incomplete, and release-asserts that it is already
marked (trapping otherwise) when marking is complete; if the phase is
`Pause` the barrier performs a plain store of the new value with no other
effect; if the phase is `Stop` the barrier performs no marking but stores
`value.forward_if_possible()` rather than the plain value. -/
theorem gc_write_barrier (s : GcS) (loc : Nat) (v : MVal) (ms : MarkState) (a : Nat) :
    (s.phase = .mark ms → ms.complete = false →
      s.locs loc = .ptr a → s.heap.base ≤ a →
      ∃ s1, s.writeWithBarrier loc v = some s1
        ∧ (s1.heap.objs a).marked = true
        ∧ s1.locs loc = forwardIfPossible s1.heap v
        ∧ ((s.heap.objs a).marked = false →
            s1.heap.markedSpace = s.heap.markedSpace + (s.heap.objs a).sizeWords
            ∧ ∃ ms1, s1.phase = .mark ms1 ∧ ms1.stack = a :: ms.stack))
    ∧ (s.phase = .mark ms → ms.complete = true →
      s.locs loc = .ptr a → s.heap.base ≤ a →
      ((s.heap.objs a).marked = false → s.writeWithBarrier loc v = none)
      ∧ ((s.heap.objs a).marked = true →
          s.writeWithBarrier loc v =
            some { s with locs := fun x =>
              if x = loc then forwardIfPossible s.heap v else s.locs x }))
    ∧ (s.phase = .pause →
      s.writeWithBarrier loc v =
        some { s with locs := fun x => if x = loc then v else s.locs x })
    ∧ (s.phase = .stop →
      s.writeWithBarrier loc v =
        some { s with locs := fun x =>
          if x = loc then forwardIfPossible s.heap v else s.locs x }) := by
  refine ⟨?_, ?_, ?_, ?_⟩
  · intro hph hcomp hloc hbase
    have hpts : pointsToOrBeyond s.heap.base (MVal.ptr a) = true := by
      simp [pointsToOrBeyond, hbase]
    by_cases hm : (s.heap.objs a).marked = true
    · have heq : s.writeWithBarrier loc v = some
          { phase := GPhase.mark ⟨ms.stack, false⟩, heap := s.heap,
            locs := fun x => if x = loc then forwardIfPossible s.heap v else s.locs x,
            allocCount := s.allocCount } := by
        simp only [GcS.writeWithBarrier, GcS.preWriteBarrier, hph, hloc, hpts,
          hcomp, MarkM.markObject, hm, ite_true]
        rfl
      refine ⟨_, heq, hm, by simp, ?_⟩
      intro hm'
      rw [hm'] at hm
      cases hm
    · have hmf : (s.heap.objs a).marked = false := by
        cases h : (s.heap.objs a).marked
        · rfl
        · exact absurd h hm
      have heq : s.writeWithBarrier loc v = some
          { phase := GPhase.mark ⟨a :: ms.stack, false⟩,
            heap := (s.heap.setObj a { s.heap.objs a with marked := true }).recordMarkedSpace a,
            locs := fun x => if x = loc then
                forwardIfPossible
                  ((s.heap.setObj a { s.heap.objs a with marked := true }).recordMarkedSpace a) v
              else s.locs x,
            allocCount := s.allocCount } := by
        simp only [GcS.writeWithBarrier, GcS.preWriteBarrier, hph, hloc, hpts,
          hcomp, MarkM.markObject, hmf, ite_true, Bool.false_eq_true, ite_false]
        rfl
      refine ⟨_, heq, ?_, by simp, ?_⟩
      · simp [MHeap.recordMarkedSpace, MHeap.setObj]
      · intro _
        refine ⟨?_, ⟨_, rfl, rfl⟩⟩
        simp [MHeap.recordMarkedSpace, MHeap.setObj]
  · intro hph hcomp hloc hbase
    unfold GcS.writeWithBarrier GcS.preWriteBarrier
    rw [hph, hloc]
    have hpts : pointsToOrBeyond s.heap.base (MVal.ptr a) = true := by
      simp [pointsToOrBeyond, hbase]
    rw [hpts]
    simp only [if_true, hcomp]
    constructor
    · intro hm
      simp [hm]
    · intro hm
      simp [hm, hph]
  · intro hph
    obtain ⟨ph, hpv, lcv, acv⟩ := s
    have h : ph = GPhase.pause := hph
    subst h
    rfl
  · intro hph
    obtain ⟨ph, hpv, lcv, acv⟩ := s
    have h : ph = GPhase.stop := hph
    subst h
    rfl

/-- Counterexample to C1 as stated: in the `Stop` phase after an
evacuation, the barrier stores the forwarding resolution of the new value,
not the plain value — in `witnessStopGc` the object 64 forwards to 128, so
writing `ptr 64` stores `ptr 128`. -/
theorem gc_write_barrier_cex :
    witnessStopGc.phase = GPhase.stop
    ∧ ((witnessStopGc.writeWithBarrier 0 (.ptr 64)).map fun s1 => s1.locs 0) =
        some (.ptr 128)
    ∧ MVal.ptr 128 ≠ MVal.ptr 64 := by
  refine ⟨rfl, ?_, by decide⟩
  rfl

/-- Closed instantiation of the write-barrier theorem: on `witnessBarrierGc`
(mark phase, incomplete, overwritten value `ptr 64`, unmarked) the barrier
marks object 64, and on `witnessPauseGc` it performs a plain store. -/
theorem gc_write_barrier_witness :
    ((witnessBarrierGc.writeWithBarrier 0 (.scalar 5)).map
        fun s1 => (s1.heap.objs 64).marked) = some true
    ∧ witnessPauseGc.writeWithBarrier 0 (.scalar 5) =
        some { witnessPauseGc with locs := fun x =>
          if x = 0 then MVal.scalar 5 else witnessPauseGc.locs x } := by
  constructor
  · obtain ⟨s1, he, hm, -, -⟩ :=
      (gc_write_barrier witnessBarrierGc 0 (.scalar 5) ⟨[], false⟩ 64).1 rfl rfl rfl
        (by decide)
    rw [he]
    simp [hm]
  · exact (gc_write_barrier witnessPauseGc 0 (.scalar 5) ⟨[], false⟩ 64).2.2.1 rfl

/-! ### Claim C9 -/

/-- C9: if the post-allocation barrier runs during the `Mark` or `Evacuate`
phase on an object whose mark bit is already set, it traps via a
release-mode assertion (modelled by `none`); on an object not yet marked it
sets the mark bit and records the object's block size as marked space,
leaving the phase and the location store unchanged. -/
theorem gc_allocation_barrier_marks (s : GcS) (a : Nat)
    (hphase : (∃ ms, s.phase = .mark ms) ∨ (∃ it, s.phase = .evacuate it)) :
    ((s.heap.objs a).marked = true → s.postAllocationBarrier a = none)
    ∧ ((s.heap.objs a).marked = false →
        ∃ s1, s.postAllocationBarrier a = some s1
          ∧ (s1.heap.objs a).marked = true
          ∧ s1.heap.markedSpace = s.heap.markedSpace + (s.heap.objs a).sizeWords
          ∧ s1.phase = s.phase ∧ s1.locs = s.locs) := by
  have hbarrier : s.postAllocationBarrier a = s.markNewAllocation a := by
    rcases hphase with ⟨ms, h⟩ | ⟨it, h⟩ <;>
      · unfold GcS.postAllocationBarrier
        rw [h]
  rw [hbarrier]
  unfold GcS.markNewAllocation
  constructor
  · intro hm
    rw [hm]
    rfl
  · intro hm
    rw [hm]
    simp only [Bool.false_eq_true, if_false]
    refine ⟨_, rfl, ?_, ?_, rfl, rfl⟩
    · simp [MHeap.recordMarkedSpace, MHeap.setObj]
    · simp [MHeap.recordMarkedSpace, MHeap.setObj]

/-- Closed instantiation of the allocation-barrier theorem: on
`witnessMarkGc` the already-marked object 64 traps; on `witnessBarrierGc`
the unmarked object 64 becomes marked with 2 words recorded. -/
theorem gc_allocation_barrier_marks_witness :
    witnessMarkGc.postAllocationBarrier 64 = none
    ∧ ((witnessBarrierGc.postAllocationBarrier 64).map
        fun s1 => (s1.heap.objs 64).marked) = some true
    ∧ ((witnessBarrierGc.postAllocationBarrier 64).map
        fun s1 => s1.heap.markedSpace) = some 2 := by
  obtain ⟨ht, -⟩ := gc_allocation_barrier_marks witnessMarkGc 64 (Or.inl ⟨_, rfl⟩)
  obtain ⟨-, hu⟩ := gc_allocation_barrier_marks witnessBarrierGc 64 (Or.inl ⟨_, rfl⟩)
  obtain ⟨s1, he, hm, hsp, -, -⟩ := hu rfl
  refine ⟨ht rfl, ?_, ?_⟩
  · rw [he]
    simp [hm]
  · rw [he]
    simp [hsp]
    rfl

end MotokoGc
